import Mathlib

/-!
Shallow embedding of the name-harmonization and ABC-classification core of
the procurement-analytics repository (src/utils.py), together with theorems
settling the frozen claims about it.

Conventions of the embedding:
* a pandas string cell is a `String`; a nullable cell is an `Option String`
  (`none` = NaN/null); a spend cell is an `Option ℚ` (`none` = NaN after
  numeric coercion).  Exact rationals stand in for floats, so the cut
  comparisons of the classifier are exact.
* strings are treated at the code-point level (`String.data : List Char`),
  matching Python `len` and indexing; the ASCII fragment of Python
  `str.strip` / `str.lower` / the `\s` regex class is modelled, which covers
  every input appearing in the concrete scenarios.
* CPython dict lookup short-circuits on object identity, and an
  object-dtype pandas column carries one shared NaN object both as the
  `groupby(dropna=False)` key and as the row value; so a NaN row key finds
  the NaN group entry in the class dict (`pyLookup` below), while NaN never
  equals any string key.
-/

set_option maxRecDepth 100000

namespace PA

/-- The ASCII whitespace characters of the Python `\s` class and `str.strip`. -/
def isPySpace (c : Char) : Bool :=
  c == ' ' || c == '\t' || c == '\n' || c == '\x0d' || c == '\x0b' || c == '\x0c'

/-- Python `str.strip()` on a character list: drop whitespace at both ends. -/
def pyStripChars (l : List Char) : List Char :=
  ((l.dropWhile isPySpace).reverse.dropWhile isPySpace).reverse

/-- Python `str.strip()`. -/
def pyStrip (s : String) : String :=
  String.mk (pyStripChars s.data)

/-- One character of `re.sub(r"[^a-z0-9\s]", " ", x)` applied after lowering:
keep lowercase ASCII letters, digits and whitespace, replace anything else. -/
def keepAlnumWs (c : Char) : Char :=
  if ('a' ≤ c && c ≤ 'z') || ('0' ≤ c && c ≤ '9') || isPySpace c then c else ' '

/-- Model of `re.sub(r"\s+", " ", x)`: every maximal whitespace run becomes one blank.
The Boolean argument records whether the previous kept character was part of
a whitespace run. -/
def collapseWs : Bool → List Char → List Char
  | _, [] => []
  | prevWs, c :: rest =>
    if isPySpace c then
      if prevWs then collapseWs true rest else ' ' :: collapseWs true rest
    else c :: collapseWs false rest

/-- Function `normalize_text` of src/utils.py lines 30-35: strip, lowercase, replace
non-alphanumerics by blanks, collapse whitespace, strip again.  (The null
branch `pd.isna(x)` is handled by the callers of the embedding, which feed
`""` for null cells, exactly as `fillna("")` does.) -/
def normalize_text (x : String) : String :=
  String.mk
    (pyStripChars
      (collapseWs false
        (((pyStripChars x.data).map Char.toLower).map keepAlnumWs)))

/-- Length of the common initial run of two character lists (the length of
the matching block that starts at a given pair of positions). -/
def matchLen : List Char → List Char → Nat
  | a :: as, b :: bs => if a == b then matchLen as bs + 1 else 0
  | _, _ => 0

/-- Model of `difflib.SequenceMatcher.find_longest_match` on two segments with no junk
(autojunk never fires on strings shorter than 200 characters): the triple
(i, j, k) with the matching-run length k maximal, ties resolved to the
smallest i and then the smallest j.  The fold scans i then j in increasing
order and replaces the best triple only on a strictly longer run, which is
exactly difflib tie-breaking. -/
def bestBlock (a b : List Char) : Nat × Nat × Nat :=
  (List.range (a.length + 1)).foldl
    (fun acc i =>
      (List.range (b.length + 1)).foldl
        (fun acc2 j =>
          let k := matchLen (a.drop i) (b.drop j)
          if acc2.2.2 < k then (i, j, k) else acc2)
        acc)
    (0, 0, 0)

/-- Total size of the matching blocks of `difflib.SequenceMatcher`
(`get_matching_blocks`): take the longest match, then recurse on the parts
before and on the parts after it.  The fuel argument bounds the recursion
depth; every recursive call strictly shrinks the first segment, so
`a.length + 1` units of fuel always suffice. -/
def matchTotalFuel : Nat → List Char → List Char → Nat
  | 0, _, _ => 0
  | fuel + 1, a, b =>
    let t := bestBlock a b
    if t.2.2 = 0 then 0
    else
      t.2.2 + matchTotalFuel fuel (a.take t.1) (b.take t.2.1)
            + matchTotalFuel fuel (a.drop (t.1 + t.2.2)) (b.drop (t.2.1 + t.2.2))

/-- Function `similarity` of src/utils.py lines 64-65: `SequenceMatcher(None, a, b)
.ratio()`, i.e. 2·M divided by the total length, and 1 when both strings are
empty (difflib `_calculate_ratio`). -/
def similarity (x y : String) : ℚ :=
  let a := x.data
  let b := y.data
  if a.length + b.length = 0 then 1
  else (2 * (matchTotalFuel (a.length + 1) a b : ℚ)) / (a.length + b.length)

/-! ## Generic list machinery

`dedupFS` models the first-seen order of distinct values that a pandas
hash table produces (`drop_duplicates`, the tie order of `value_counts`);
`sortStable` is a stable insertion sort standing in for the sorts of
`value_counts` / `sort_values` (stability fixes the tie order
deterministically; every concrete scenario of the spec has distinct sort
keys, so the choice is observationally irrelevant there). -/

/-- Distinct elements of a list in order of first appearance. -/
def dedupFSAux [DecidableEq α] (seen : List α) : List α → List α
  | [] => []
  | x :: xs => if x ∈ seen then dedupFSAux seen xs else x :: dedupFSAux (x :: seen) xs

/-- First-seen deduplication. -/
def dedupFS [DecidableEq α] (l : List α) : List α :=
  dedupFSAux [] l

/-- Insert `x` into `l`, placing it before the first element `y` with
`lt x y`; with a strict comparison this keeps insertion stable. -/
def insertStable (lt : α → α → Bool) (x : α) : List α → List α
  | [] => [x]
  | y :: ys => if lt x y then x :: y :: ys else y :: insertStable lt x ys

/-- Stable insertion sort: elements are inserted left to right, so elements
the comparison does not separate keep their input order. -/
def sortStable (lt : α → α → Bool) (l : List α) : List α :=
  l.foldl (fun acc x => insertStable lt x acc) []

/-- Lexicographic comparison of character lists (Python string `<`). -/
def charListLt : List Char → List Char → Bool
  | [], [] => false
  | [], _ :: _ => true
  | _ :: _, [] => false
  | a :: as, b :: bs => if a < b then true else if b < a then false else charListLt as bs

/-- Python dict lookup with a possibly-NaN key.  CPython compares by object
identity before equality, and in an object-dtype column the missing cells
and the `groupby(dropna=False)` NaN key are the one shared NaN object, so a
`none` key finds the `none` entry; string keys match by equality; NaN never
equals a string. -/
def pyLookup (k : Option String) : List (Option String × β) → Option β
  | [] => none
  | (k2, v) :: rest =>
    match k, k2 with
    | none, none => some v
    | some a, some b => if a == b then some v else pyLookup (some a) rest
    | _, _ => pyLookup k rest

/-! ## NameHarmonizer (src/utils.py, `harmonize_names`, lines 67-120)

The pipeline is split into one definition per intermediate value of the
source so that theorems can speak about each stage; `harmonize_names`
repackages them into the returned triple.  The clustering loop is
parametrised by the Boolean pair test `sOK` (the conjunction of the two
length guards and the similarity threshold) so that structural lemmas about
the greedy loop do not depend on the string metric. -/

/-- The guard of src/utils.py line 91:
`len(u) >= min_len and len(v) >= min_len and similarity(u, v) >= threshold`.
`min_len` is an `ℤ` because the Python parameter is an unconstrained int. -/
def simOK (threshold : ℚ) (minLen : ℤ) (u v : String) : Bool :=
  decide (minLen ≤ (u.data.length : ℤ)) && decide (minLen ≤ (v.data.length : ℤ)) &&
    decide (threshold ≤ similarity u v)

/-- The inner loop of lines 88-93: scan `vs`, and assign each still
unassigned `v` passing the pair test to the seed `u`, collecting the members
added to the open cluster in scan order.  `assigned` is the dict mapping a
normalized value to the seed of its cluster. -/
def innerAssign (sOK : String → String → Bool) (u : String) :
    List String → List (String × String) → List (String × String) × List String
  | [], assigned => (assigned, [])
  | v :: vs, assigned =>
    if (assigned.lookup v).isSome then innerAssign sOK u vs assigned
    else if sOK u v then
      let r := innerAssign sOK u vs ((v, u) :: assigned)
      (r.1, v :: r.2)
    else innerAssign sOK u vs assigned

/-- The outer loop of lines 83-94: each still unassigned `u` seeds a new
cluster and scans the full unique list.  `full` stays the whole (truncated)
unique list, as in the source, while the first list argument is the suffix
the outer iteration still has to visit. -/
def outerLoop (sOK : String → String → Bool) (full : List String) :
    List String → List (String × String) → List (List String) →
      List (String × String) × List (List String)
  | [], assigned, clusters => (assigned, clusters.reverse)
  | u :: us, assigned, clusters =>
    if (assigned.lookup u).isSome then outerLoop sOK full us assigned clusters
    else
      let r := innerAssign sOK u full ((u, u) :: assigned)
      outerLoop sOK full us r.1 ((u :: r.2) :: clusters)

/-- Lines 81-94 as a whole: the final assignment dict and the cluster list. -/
def clusteringOf (sOK : String → String → Bool) (uniques : List String) :
    List (String × String) × List (List String) :=
  outerLoop sOK uniques uniques [] []

/-- Line 72, `series.fillna("").astype(str)`. -/
def sRawOf (series : List (Option String)) : List String :=
  series.map (fun o => o.getD "")

/-- Line 73, `s_raw.map(normalize_text)`. -/
def sNormOf (series : List (Option String)) : List String :=
  (sRawOf series).map normalize_text

/-- Line 79, `freq = s_norm.value_counts().to_dict()`: the frequency of a
normalized value over the full input. -/
def freqOf (series : List (Option String)) (x : String) : Nat :=
  (sNormOf series).count x

/-- Line 75, `s_norm.value_counts().index.tolist()`: distinct normalized
values by descending frequency, ties in first-seen order. -/
def uniquesAllOf (series : List (Option String)) : List String :=
  sortStable (fun a b => decide (freqOf series b < freqOf series a))
    (dedupFS (sNormOf series))

/-- Lines 75-77: the unique list truncated to the first `maxUniques`
entries when it is longer. -/
def uniquesOf (maxUniques : Nat) (series : List (Option String)) : List String :=
  let u := uniquesAllOf series
  if maxUniques < u.length then u.take maxUniques else u

/-- The assignment dict produced by the clustering loop on the truncated
unique list of the input. -/
def assignedOf (t : ℚ) (m : ℤ) (mu : Nat) (series : List (Option String)) :
    List (String × String) :=
  (clusteringOf (simOK t m) (uniquesOf mu series)).1

/-- The cluster list produced by the clustering loop. -/
def clustersOf (t : ℚ) (m : ℤ) (mu : Nat) (series : List (Option String)) :
    List (List String) :=
  (clusteringOf (simOK t m) (uniquesOf mu series)).2

/-- Python `max(cluster, key=...)` keeps the first maximum: replace the
running best only on a strictly larger key. -/
def maxByFreq (freq : String → Nat) : String → List String → String
  | best, [] => best
  | best, x :: xs => if freq best < freq x then maxByFreq freq x xs else maxByFreq freq best xs

/-- Lines 97-101: map every member of every cluster to the most frequent
member of its cluster (`cluster_best`). -/
def clusterBestList (freq : String → Nat) (clusters : List (List String)) :
    List (String × String) :=
  (clusters.map (fun c =>
    match c with
    | [] => []
    | h :: tl => c.map (fun mem => (mem, maxByFreq freq h tl)))).flatten

/-- The dict `cluster_best` for the given input and parameters. -/
def clusterBestOf (t : ℚ) (m : ℤ) (mu : Nat) (series : List (Option String)) :
    List (String × String) :=
  clusterBestList (freqOf series) (clustersOf t m mu series)

/-- Line 103: `canon_norm = s_norm.map(lambda x: cluster_best.get(x, x))`. -/
def canonNormOf (t : ℚ) (m : ℤ) (mu : Nat) (series : List (Option String)) :
    List String :=
  (sNormOf series).map (fun x => ((clusterBestOf t m mu series).lookup x).getD x)

/-- The raw strings of the rows whose `canon_norm` equals `g` (the groupby
of line 107). -/
def rawsWithCanon (t : ℚ) (m : ℤ) (mu : Nat) (series : List (Option String))
    (g : String) : List String :=
  (((sRawOf series).zip (canonNormOf t m mu series)).filterMap
    (fun p => if p.2 == g then some p.1 else none))

/-- Line 108, `x.value_counts().index[0] if len(x) else ""`: the most
frequent element, ties in first-seen order, and `""` on an empty list. -/
def mostFreqFS (l : List String) : String :=
  match dedupFS l with
  | [] => ""
  | h :: tl => maxByFreq (fun x => l.count x) h tl

/-- Lines 106-110: the dict `best_raw` from a canonical normalized value to
the most frequent raw string among the rows mapped to it. -/
def bestRawListOf (t : ℚ) (m : ℤ) (mu : Nat) (series : List (Option String)) :
    List (String × String) :=
  (dedupFS (canonNormOf t m mu series)).map
    (fun g => (g, mostFreqFS (rawsWithCanon t m mu series g)))

/-- Line 111: `canon_final = canon_norm.map(lambda x: best_raw.get(x, x))`. -/
def canonFinalOf (t : ℚ) (m : ℤ) (mu : Nat) (series : List (Option String)) :
    List String :=
  (canonNormOf t m mu series).map
    (fun x => ((bestRawListOf t m mu series).lookup x).getD x)

/-- Line 112: the changed mask compares the trimmed canonical string with
the trimmed raw string. -/
def changedOf (t : ℚ) (m : ℤ) (mu : Nat) (series : List (Option String)) :
    List Bool :=
  ((canonFinalOf t m mu series).zip (sRawOf series)).map
    (fun p => !(pyStrip p.1 == pyStrip p.2))

/-- Ordering of the audit table of lines 114-119: by canonical label, then
by raw value (both lexicographic). -/
def mappingRowLt (a b : String × String × String) : Bool :=
  charListLt a.2.2.data b.2.2.data ||
    (a.2.2 == b.2.2 && charListLt a.1.data b.1.data)

/-- Lines 114-119: the audit table, one row (raw, canon_norm, canonical) per
distinct triple, sorted by canonical label then raw value. -/
def mappingOf (t : ℚ) (m : ℤ) (mu : Nat) (series : List (Option String)) :
    List (String × String × String) :=
  sortStable mappingRowLt
    (dedupFS (((sRawOf series).zip ((canonNormOf t m mu series).zip
      (canonFinalOf t m mu series))).map (fun p => (p.1, p.2.1, p.2.2))))

/-- Function `harmonize_names` of src/utils.py lines 67-120: canonical series, audit
table, changed mask. -/
def harmonize_names (threshold : ℚ) (minLen : ℤ) (maxUniques : Nat)
    (series : List (Option String)) :
    List String × List (String × String × String) × List Bool :=
  (canonFinalOf threshold minLen maxUniques series,
   mappingOf threshold minLen maxUniques series,
   changedOf threshold minLen maxUniques series)

/-! ## ABC classification (src/utils.py, `abc_classification`, lines 191-211)

A row is a pair (group key, spend); `none` stands for a null key or a NaN
spend.  `groupby(group_col, dropna=False)` puts all NaN keys into one group
and sorts group keys ascending (NaN last); `.sum()` skips NaN spends, so a
group of only-NaN spends totals 0.  `sort_values(ascending=False)` is
modelled as a stable descending sort on the totals (pandas quicksort fixes
no tie order; every claim is insensitive to it). -/

/-- Ascending group-key order of `groupby`: strings lexicographically, the
NaN key last. -/
def keyLt : Option String → Option String → Bool
  | some a, some b => charListLt a.data b.data
  | some _, none => true
  | none, _ => false

/-- The distinct group keys in the ascending groupby order. -/
def groupKeysOf (rows : List (Option String × Option ℚ)) : List (Option String) :=
  sortStable keyLt (dedupFS (rows.map Prod.fst))

/-- The aggregated spend of one group: the sum of its non-null spends
(pandas `sum()` skips NaN). -/
def groupTotal (rows : List (Option String × Option ℚ)) (k : Option String) : ℚ :=
  (rows.filterMap (fun r => if r.1 == k then r.2 else none)).sum

/-- Line 195: per-group totals sorted by total descending
(`groupby(...).sum().sort_values(ascending=False)`). -/
def aggOf (rows : List (Option String × Option ℚ)) : List (Option String × ℚ) :=
  sortStable (fun a b => decide (b.2 < a.2))
    ((groupKeysOf rows).map (fun k => (k, groupTotal rows k)))

/-- Line 196: `total = agg.sum()`. -/
def totalOf (rows : List (Option String × Option ℚ)) : ℚ :=
  ((aggOf rows).map Prod.snd).sum

/-- Line 200: running cumulative sums divided by the grand total
(`agg.cumsum() / total`). -/
def cumAux (tot acc : ℚ) : List (Option String × ℚ) → List (Option String × ℚ)
  | [] => []
  | (k, v) :: rest => (k, (acc + v) / tot) :: cumAux tot (acc + v) rest

/-- The cumulative-share list of the groups, in descending-total order. -/
def cumOf (rows : List (Option String × Option ℚ)) : List (Option String × ℚ) :=
  cumAux (totalOf rows) 0 (aggOf rows)

/-- Lines 203-209: the share-to-class thresholds. -/
def classifyShare (aCut bCut v : ℚ) : String :=
  if v ≤ aCut then "A" else if v ≤ bCut then "B" else "C"

/-- The dict `cls` from group key to class. -/
def clsListOf (rows : List (Option String × Option ℚ)) (aCut bCut : ℚ) :
    List (Option String × String) :=
  (cumOf rows).map (fun p => (p.1, classifyShare aCut bCut p.2))

/-- Function `abc_classification` of src/utils.py lines 191-211.  The zero-total
branch of lines 197-198 returns all C.  Line 211 looks each row key up in
the dict `cls` with the default "C"; a NaN row key finds the NaN group
entry through the identity shortcut, so null-key rows inherit the NaN
group's class.  The trailing `.fillna("C")` never fires (`cls.get` always
returns a string) and adds nothing to the model. -/
def abc_classification (rows : List (Option String × Option ℚ)) (aCut bCut : ℚ) :
    List String :=
  if totalOf rows = 0 then rows.map (fun _ => "C")
  else rows.map (fun r => (pyLookup r.1 (clsListOf rows aCut bCut)).getD "C")

/-! ## Lemmas about the generic list machinery -/

theorem mem_dedupFSAux [DecidableEq α] (l : List α) (seen : List α) (a : α) :
    a ∈ dedupFSAux seen l ↔ a ∈ l ∧ a ∉ seen := by
  induction l generalizing seen with
  | nil => simp [dedupFSAux]
  | cons x xs ih =>
    by_cases hx : x ∈ seen
    · rw [dedupFSAux, if_pos hx, ih]
      constructor
      · exact fun h => ⟨List.mem_cons_of_mem _ h.1, h.2⟩
      · rintro ⟨hmem, hns⟩
        rcases List.mem_cons.mp hmem with rfl | h
        · exact absurd hx hns
        · exact ⟨h, hns⟩
    · rw [dedupFSAux, if_neg hx]
      constructor
      · intro h
        rcases List.mem_cons.mp h with rfl | h2
        · exact ⟨List.mem_cons_self _ _, hx⟩
        · have := (ih _).mp h2
          exact ⟨List.mem_cons_of_mem _ this.1,
            fun hs => this.2 (List.mem_cons_of_mem _ hs)⟩
      · rintro ⟨hmem, hns⟩
        rcases List.mem_cons.mp hmem with rfl | h
        · exact List.mem_cons_self _ _
        · by_cases hax : a = x
          · subst hax; exact List.mem_cons_self _ _
          · exact List.mem_cons_of_mem _ ((ih _).mpr
              ⟨h, fun hs => (List.mem_cons.mp hs).elim hax hns⟩)

theorem mem_dedupFS [DecidableEq α] (l : List α) (a : α) :
    a ∈ dedupFS l ↔ a ∈ l := by
  rw [dedupFS, mem_dedupFSAux]
  simp

theorem nodup_dedupFSAux [DecidableEq α] (l : List α) (seen : List α) :
    (dedupFSAux seen l).Nodup := by
  induction l generalizing seen with
  | nil => simp [dedupFSAux]
  | cons x xs ih =>
    by_cases hx : x ∈ seen
    · rw [dedupFSAux, if_pos hx]; exact ih _
    · rw [dedupFSAux, if_neg hx]
      refine List.nodup_cons.mpr ⟨fun hmem => ?_, ih _⟩
      exact ((mem_dedupFSAux _ _ _).mp hmem).2 (List.mem_cons_self _ _)

theorem nodup_dedupFS [DecidableEq α] (l : List α) : (dedupFS l).Nodup :=
  nodup_dedupFSAux l []

theorem insertStable_perm (lt : α → α → Bool) (x : α) (l : List α) :
    List.Perm (insertStable lt x l) (x :: l) := by
  induction l with
  | nil => rfl
  | cons y ys ih =>
    rw [insertStable]
    by_cases h : lt x y
    · rw [if_pos h]
    · rw [if_neg h]
      exact (ih.cons y).trans (List.Perm.swap x y ys)

theorem sortStable_foldl_perm (lt : α → α → Bool) (l acc : List α) :
    List.Perm (l.foldl (fun a x => insertStable lt x a) acc) (l ++ acc) := by
  induction l generalizing acc with
  | nil => simp
  | cons x xs ih =>
    have h2 := ih (insertStable lt x acc)
    have h3 := List.Perm.append_left xs (insertStable_perm lt x acc)
    exact (h2.trans h3).trans List.perm_middle

theorem sortStable_perm (lt : α → α → Bool) (l : List α) :
    List.Perm (sortStable lt l) l := by
  have := sortStable_foldl_perm lt l []
  simpa [sortStable] using this

theorem pairwise_insertStable {β} [LinearOrder β] (key : α → β) (x : α) (l : List α)
    (h : l.Pairwise (fun a b => key b ≤ key a)) :
    (insertStable (fun a b => decide (key b < key a)) x l).Pairwise
      (fun a b => key b ≤ key a) := by
  induction l with
  | nil => simp [insertStable]
  | cons y ys ih =>
    rw [insertStable]
    by_cases hlt : key y < key x
    · simp only [decide_eq_true_eq, hlt, if_pos]
      refine List.pairwise_cons.mpr ⟨?_, h⟩
      intro z hz
      rcases List.mem_cons.mp hz with rfl | hz2
      · exact le_of_lt hlt
      · exact le_trans ((List.pairwise_cons.mp h).1 z hz2) (le_of_lt hlt)
    · simp only [decide_eq_true_eq, hlt, if_neg, not_false_iff]
      have hy := List.pairwise_cons.mp h
      refine List.pairwise_cons.mpr ⟨?_, ih hy.2⟩
      intro z hz
      have hz2 := (insertStable_perm _ x ys).mem_iff.mp hz
      rcases List.mem_cons.mp hz2 with rfl | hz3
      · exact le_of_not_lt hlt
      · exact hy.1 z hz3

theorem pairwise_sortStable_foldl {β} [LinearOrder β] (key : α → β) (l acc : List α)
    (hacc : acc.Pairwise (fun a b => key b ≤ key a)) :
    (l.foldl (fun a x => insertStable (fun a b => decide (key b < key a)) x a)
      acc).Pairwise (fun a b => key b ≤ key a) := by
  induction l generalizing acc with
  | nil => simpa
  | cons x xs ih => exact ih _ (pairwise_insertStable key x acc hacc)

theorem pairwise_sortStable {β} [LinearOrder β] (key : α → β) (l : List α) :
    (sortStable (fun a b => decide (key b < key a)) l).Pairwise
      (fun a b => key b ≤ key a) :=
  pairwise_sortStable_foldl key l [] (List.Pairwise.nil)

theorem lookup_isSome_of_mem_keys [BEq α] [LawfulBEq α] (l : List (α × β)) (k : α)
    (h : k ∈ l.map Prod.fst) : (l.lookup k).isSome := by
  induction l with
  | nil => simp at h
  | cons p ps ih =>
    obtain ⟨k1, v1⟩ := p
    rw [List.map_cons, List.mem_cons] at h
    rw [List.lookup]
    by_cases hk : (k == k1) = true
    · rw [hk]; rfl
    · rw [Bool.not_eq_true] at hk
      rw [hk]
      refine ih (h.resolve_left ?_)
      intro he
      rw [he] at hk
      simp at hk

theorem lookup_eq_some_of_mem_nodup [BEq α] [LawfulBEq α] (l : List (α × β)) (k : α) (v : β)
    (hnd : (l.map Prod.fst).Nodup) (h : (k, v) ∈ l) : l.lookup k = some v := by
  induction l with
  | nil => simp at h
  | cons p ps ih =>
    obtain ⟨k1, v1⟩ := p
    rw [List.map_cons, List.nodup_cons] at hnd
    rcases List.mem_cons.mp h with heq | h2
    · cases heq
      rw [List.lookup]
      simp
    · have hkp : (k == k1) = false := by
        rw [Bool.eq_false_iff]
        intro hk
        have hkk : k = k1 := by simpa using hk
        subst hkk
        exact hnd.1 (by simpa using List.mem_map_of_mem Prod.fst h2)
      rw [List.lookup, hkp]
      exact ih hnd.2 h2

theorem mem_of_lookup_eq_some [BEq α] [LawfulBEq α] (l : List (α × β)) (k : α) (v : β)
    (h : l.lookup k = some v) : (k, v) ∈ l := by
  induction l with
  | nil => simp [List.lookup] at h
  | cons p ps ih =>
    obtain ⟨k1, v1⟩ := p
    rw [List.lookup] at h
    by_cases hk : (k == k1) = true
    · rw [hk] at h
      have hk2 : k = k1 := by simpa using hk
      have hv : v1 = v := by simpa using h
      subst hk2; subst hv
      exact List.mem_cons_self _ _
    · rw [Bool.not_eq_true] at hk
      rw [hk] at h
      exact List.mem_cons_of_mem _ (ih h)

theorem lookup_map_snd [BEq α] [LawfulBEq α] (l : List (α × β)) (g : β → γ) (k : α) :
    ((l.map (fun p => (p.1, g p.2))).lookup k) = (l.lookup k).map g := by
  induction l with
  | nil => simp [List.lookup]
  | cons p ps ih =>
    obtain ⟨k1, v1⟩ := p
    rw [List.map_cons, List.lookup, List.lookup]
    by_cases hk : (k == k1) = true
    · rw [hk]; rfl
    · rw [Bool.not_eq_true] at hk
      rw [hk]
      exact ih

/-- With the NaN identity shortcut, the Python dict lookup coincides with
association-list lookup under the `Option` equality. -/
theorem pyLookup_eq_lookup (l : List (Option String × β)) (k : Option String) :
    pyLookup k l = l.lookup k := by
  induction l with
  | nil => cases k <;> rfl
  | cons p ps ih =>
    obtain ⟨k2, v⟩ := p
    cases k with
    | none =>
      cases k2 with
      | none => rfl
      | some b => exact ih
    | some a =>
      cases k2 with
      | none => exact ih
      | some b =>
        cases h : a == b with
        | true =>
          have hb : ((some a : Option String) == some b) = true := by
            simpa using h
          rw [List.lookup, hb]
          show (if (a == b) = true then some v else pyLookup (some a) ps) = some v
          rw [h]
          simp
        | false =>
          have hb : ((some a : Option String) == some b) = false := by
            simpa using h
          rw [List.lookup, hb]
          show (if (a == b) = true then some v else pyLookup (some a) ps) =
            ps.lookup (some a)
          rw [h]
          simpa using ih

/-! ## Lemmas about the ABC classifier -/

/-- A ≺ B ≺ C: the rank used to state monotonicity ("never worse"). -/
def classRank (s : String) : Nat :=
  if s = "A" then 0 else if s = "B" then 1 else 2

/-- The cumulative spend share the classifier computed for the group of a
key (the NaN group included), 0 if the key has no group. -/
def cumShareOf (rows : List (Option String × Option ℚ)) (k : Option String) : ℚ :=
  (((cumOf rows).lookup k).getD 0)

theorem cumAux_map_fst (tot acc : ℚ) (l : List (Option String × ℚ)) :
    (cumAux tot acc l).map Prod.fst = l.map Prod.fst := by
  induction l generalizing acc with
  | nil => rfl
  | cons p ps ih =>
    obtain ⟨k, v⟩ := p
    rw [cumAux, List.map_cons, List.map_cons, ih]

theorem mem_groupKeysOf (rows : List (Option String × Option ℚ)) (k : Option String) :
    k ∈ groupKeysOf rows ↔ k ∈ rows.map Prod.fst :=
  ((sortStable_perm _ _).mem_iff).trans (mem_dedupFS _ _)

theorem nodup_groupKeysOf (rows : List (Option String × Option ℚ)) :
    (groupKeysOf rows).Nodup :=
  ((sortStable_perm _ _).nodup_iff).mpr (nodup_dedupFS _)

theorem aggOf_perm (rows : List (Option String × Option ℚ)) :
    List.Perm (aggOf rows)
      ((groupKeysOf rows).map (fun k => (k, groupTotal rows k))) :=
  sortStable_perm _ _

theorem aggOf_map_fst_perm (rows : List (Option String × Option ℚ)) :
    List.Perm ((aggOf rows).map Prod.fst) (groupKeysOf rows) := by
  have h := (aggOf_perm rows).map Prod.fst
  rw [List.map_map] at h
  have hid : (Prod.fst ∘ fun k => (k, groupTotal rows k)) = id := rfl
  rw [hid, List.map_id] at h
  exact h

theorem cumOf_map_fst_perm (rows : List (Option String × Option ℚ)) :
    List.Perm ((cumOf rows).map Prod.fst) (groupKeysOf rows) := by
  rw [cumOf, cumAux_map_fst]
  exact aggOf_map_fst_perm rows

theorem classifyShare_cases (aCut bCut v : ℚ) :
    classifyShare aCut bCut v = "A" ∨ classifyShare aCut bCut v = "B" ∨
      classifyShare aCut bCut v = "C" := by
  unfold classifyShare
  split_ifs <;> simp

/-- Claim C6: an input with zero aggregated total spend (in particular one
whose spends are all null) classifies every row as C. -/
theorem abc_zero_total_all_C (rows : List (Option String × Option ℚ))
    (aCut bCut : ℚ) (h : totalOf rows = 0) :
    abc_classification rows aCut bCut = List.replicate rows.length "C" := by
  unfold abc_classification
  rw [if_pos h]
  clear h
  induction rows with
  | nil => rfl
  | cons r rs ih => rw [List.map_cons, ih, List.length_cons, List.replicate_succ]

/-- Witness for C6 at an input whose only spend is null. -/
theorem abc_zero_total_all_C_witness :
    totalOf [(some "g", none)] = 0 ∧
      abc_classification [(some "g", none)] (4/5) (19/20) = List.replicate 1 "C" :=
  ⟨by with_unfolding_all decide,
   abc_zero_total_all_C [(some "g", none)] (4/5) (19/20) (by with_unfolding_all decide)⟩

/-- Shared helper: with nonzero total, every row receives exactly the
threshold class of the cumulative spend share of its group — null group
keys included, since the NaN group entry is found through the identity
shortcut. -/
theorem abc_row_class (rows : List (Option String × Option ℚ)) (aCut bCut : ℚ)
    (htot : totalOf rows ≠ 0) (i : Nat) (r : Option String × Option ℚ)
    (hi : rows[i]? = some r) :
    (abc_classification rows aCut bCut)[i]? =
      some (classifyShare aCut bCut (cumShareOf rows r.1)) := by
  have hrmem : r ∈ rows := List.getElem?_mem hi
  have hks : r.1 ∈ (cumOf rows).map Prod.fst := by
    rw [(cumOf_map_fst_perm rows).mem_iff, mem_groupKeysOf]
    exact List.mem_map_of_mem Prod.fst hrmem
  have hsome := lookup_isSome_of_mem_keys _ _ hks
  obtain ⟨v, hv⟩ := Option.isSome_iff_exists.mp hsome
  unfold abc_classification
  rw [if_neg htot, List.getElem?_map, hi, Option.map_some']
  rw [pyLookup_eq_lookup]
  have hcls : (clsListOf rows aCut bCut).lookup r.1 =
      some (classifyShare aCut bCut v) := by
    rw [clsListOf, lookup_map_snd, hv]
    rfl
  rw [hcls]
  rw [cumShareOf, hv]
  rfl

/-- Counterexample to claim C10 as frozen: a null group key does not fail
the dict lookup.  CPython dict lookup short-circuits on object identity,
and the object-dtype column carries one shared NaN object as both the
groupby key and the row value, so the null-key row inherits the NaN group
class: here the null group dominates spend and its row classifies "A",
not "C". -/
theorem abc_nullkey_inherits_cex :
    abc_classification [(none, some 100), (some "g1", some 50),
      (some "g2", some 30), (some "g3", some 20)] (4/5) (19/20) =
      ["A", "A", "B", "C"] := by
  with_unfolding_all decide

/-- Claim C10 (amended): the classifier is total over its rows — one label
per row, always in {A, B, C}; a row whose key misses the class dict falls
back to the default "C" of line 211; but a null group key does not miss —
the NaN group is looked up through the shared NaN object, so a null-key row
inherits the computed class of the NaN group. -/
theorem abc_total_per_row (rows : List (Option String × Option ℚ)) (aCut bCut : ℚ) :
    (abc_classification rows aCut bCut).length = rows.length ∧
    (∀ c ∈ abc_classification rows aCut bCut, c = "A" ∨ c = "B" ∨ c = "C") ∧
    (∀ (i : Nat) (r : Option String × Option ℚ), rows[i]? = some r →
      totalOf rows ≠ 0 → pyLookup r.1 (clsListOf rows aCut bCut) = none →
      (abc_classification rows aCut bCut)[i]? = some "C") ∧
    (∀ (i : Nat) (r : Option String × Option ℚ), rows[i]? = some r → r.1 = none →
      totalOf rows ≠ 0 →
      (abc_classification rows aCut bCut)[i]? =
        some (classifyShare aCut bCut (cumShareOf rows none))) := by
  refine ⟨?_, ?_, ?_, ?_⟩
  · unfold abc_classification
    split <;> simp
  · intro c hc
    unfold abc_classification at hc
    split at hc
    · rcases List.mem_map.mp hc with ⟨r, _, rfl⟩
      simp
    · rcases List.mem_map.mp hc with ⟨r, _, rfl⟩
      rw [pyLookup_eq_lookup]
      cases hl : (clsListOf rows aCut bCut).lookup r.1 with
      | none => simp
      | some v =>
        have hmem := mem_of_lookup_eq_some _ _ _ hl
        rcases List.mem_map.mp hmem with ⟨p, _, hp⟩
        have hv : classifyShare aCut bCut p.2 = v := congrArg Prod.snd hp
        simpa [← hv] using classifyShare_cases aCut bCut p.2
  · intro i r hi htot hnone
    unfold abc_classification
    rw [if_neg htot, List.getElem?_map, hi, Option.map_some', hnone]
    rfl
  · intro i r hi hr htot
    have h := abc_row_class rows aCut bCut htot i r hi
    rw [hr] at h
    exact h

/-- Claim C1: with positive total spend and any cuts 0 < aCut < bCut ≤ 1,
every row — null group key included — receives exactly the threshold class
of the cumulative spend share of its group, and the concrete scenario
[(g1,100),(g2,50),(g3,30),(g4,20)] with cuts 0.8/0.95 classifies as
A, A, B, C. -/
theorem abc_inherits_group_class (rows : List (Option String × Option ℚ))
    (aCut bCut : ℚ) (h0 : 0 < aCut) (hab : aCut < bCut) (hb1 : bCut ≤ 1)
    (htot : totalOf rows ≠ 0) :
    (∀ (i : Nat) (r : Option String × Option ℚ), rows[i]? = some r →
      (abc_classification rows aCut bCut)[i]? =
        some (classifyShare aCut bCut (cumShareOf rows r.1))) ∧
    abc_classification
      [(some "g1", some 100), (some "g2", some 50), (some "g3", some 30),
        (some "g4", some 20)] (4/5) (19/20) = ["A", "A", "B", "C"] := by
  constructor
  · intro i r hi
    exact abc_row_class rows aCut bCut htot i r hi
  · with_unfolding_all decide

/-- Witness for C1 at the concrete scenario: row 0 (group g1, share 1/2)
gets class A. -/
theorem abc_inherits_group_class_witness :
    (PA.abc_classification
      [(some "g1", some 100), (some "g2", some 50), (some "g3", some 30),
        (some "g4", some 20)] (4/5) (19/20) = ["A", "A", "B", "C"]) :=
  (abc_inherits_group_class
    [(some "g1", some 100), (some "g2", some 50), (some "g3", some 30),
      (some "g4", some 20)] (4/5) (19/20)
    (by norm_num) (by norm_num) (by norm_num) (by with_unfolding_all decide)).2

/-- Claim C7: the threshold classification is monotone — a group whose
cumulative share is at most that of another group never gets a worse class
(A before B before C); both groups get exactly the threshold class of their
share in the class dict. -/
theorem abc_monotone_in_share (rows : List (Option String × Option ℚ))
    (aCut bCut : ℚ) (kx ky : Option String) (sx sy : ℚ)
    (hx : (kx, sx) ∈ cumOf rows) (hy : (ky, sy) ∈ cumOf rows) (hs : sx ≤ sy) :
    classRank (classifyShare aCut bCut sx) ≤ classRank (classifyShare aCut bCut sy) ∧
    (kx, classifyShare aCut bCut sx) ∈ clsListOf rows aCut bCut ∧
    (ky, classifyShare aCut bCut sy) ∈ clsListOf rows aCut bCut := by
  refine ⟨?_, ?_, ?_⟩
  · unfold classifyShare
    split_ifs <;> first | decide | (exfalso; linarith)
  · exact List.mem_map.mpr ⟨(kx, sx), hx, rfl⟩
  · exact List.mem_map.mpr ⟨(ky, sy), hy, rfl⟩

/-- Witness for C7 at the concrete scenario: g2 (share 3/4, class A) against
g3 (share 9/10, class B). -/
theorem abc_monotone_in_share_witness :
    classRank (classifyShare (4/5) (19/20) (3/4)) ≤
      classRank (classifyShare (4/5) (19/20) (9/10)) ∧
    (some "g2", classifyShare (4/5) (19/20) (3/4)) ∈
      clsListOf [(some "g1", some 100), (some "g2", some 50), (some "g3", some 30),
        (some "g4", some 20)] (4/5) (19/20) ∧
    (some "g3", classifyShare (4/5) (19/20) (9/10)) ∈
      clsListOf [(some "g1", some 100), (some "g2", some 50), (some "g3", some 30),
        (some "g4", some 20)] (4/5) (19/20) :=
  abc_monotone_in_share
    [(some "g1", some 100), (some "g2", some 50), (some "g3", some 30),
      (some "g4", some 20)] (4/5) (19/20) (some "g2") (some "g3") (3/4) (9/10)
    (by with_unfolding_all decide) (by with_unfolding_all decide) (by norm_num)

/-! ## NaN handling of the classifier (claim C9) -/

theorem groupTotal_cons (r : Option String × Option ℚ)
    (rows : List (Option String × Option ℚ)) (k : Option String) :
    groupTotal (r :: rows) k =
      (if r.1 == k then r.2.getD 0 else 0) + groupTotal rows k := by
  by_cases h : r.1 = k <;> cases hv : r.2 <;>
    simp [groupTotal, List.filterMap_cons, h, hv]

theorem sum_ite_eq_zero_of_not_mem [BEq α] [LawfulBEq α] (K : List α) (a : α) (c : ℚ)
    (ha : a ∉ K) : (K.map (fun k => if a == k then c else 0)).sum = 0 := by
  induction K with
  | nil => rfl
  | cons x xs ih =>
    have hx : (a == x) = false := by
      rw [Bool.eq_false_iff]
      intro h
      exact ha (by simp [eq_of_beq h])
    rw [List.map_cons, List.sum_cons, if_neg (by simp [hx]),
      ih (fun h => ha (List.mem_cons_of_mem _ h)), add_zero]

theorem sum_ite_eq_of_mem [BEq α] [LawfulBEq α] (K : List α) (a : α) (c : ℚ)
    (hnd : K.Nodup) (ha : a ∈ K) :
    (K.map (fun k => if a == k then c else 0)).sum = c := by
  induction K with
  | nil => simp at ha
  | cons x xs ih =>
    rw [List.nodup_cons] at hnd
    rcases List.mem_cons.mp ha with rfl | hmem
    · rw [List.map_cons, List.sum_cons, if_pos (by simp),
        sum_ite_eq_zero_of_not_mem xs a c hnd.1, add_zero]
    · have hx : (a == x) = false := by
        rw [Bool.eq_false_iff]
        intro h
        rw [eq_of_beq h] at hmem
        exact hnd.1 hmem
      rw [List.map_cons, List.sum_cons, if_neg (by simp [hx]), ih hnd.2 hmem, zero_add]

/-- Summing the per-group totals over any duplicate-free cover of the keys
gives the sum of all non-null spends: NaN spends are skipped from every
group total, and nothing else is. -/
theorem sum_groupTotal_eq (rows : List (Option String × Option ℚ))
    (K : List (Option String)) (hnd : K.Nodup) (hcov : ∀ r ∈ rows, r.1 ∈ K) :
    (K.map (groupTotal rows)).sum = (rows.filterMap Prod.snd).sum := by
  induction rows with
  | nil =>
    have hz : groupTotal ([] : List (Option String × Option ℚ)) = fun _ => (0 : ℚ) :=
      funext fun _ => rfl
    simp [hz]
  | cons r rs ih =>
    have hfun : groupTotal (r :: rs) =
        fun k => (if r.1 == k then r.2.getD 0 else 0) + groupTotal rs k :=
      funext fun k => groupTotal_cons r rs k
    rw [hfun, List.sum_map_add,
      sum_ite_eq_of_mem K r.1 (r.2.getD 0) hnd (hcov r (List.mem_cons_self _ _)),
      ih (fun x hx => hcov x (List.mem_cons_of_mem _ hx))]
    cases hv : r.2 <;> simp [List.filterMap_cons, hv]

/-- Claim C9 (amended): NaN spends are excluded from both the numerator and
the denominator — the grand total equals the sum of the non-null spends, a
group whose spends are all null totals 0 and appears in the ranking with
total 0, and the ranking is sorted by total descending, so such a group is
ranked after every group with a positive total (but before groups with
negative totals, which is why "ranked last" is not true in general). -/
theorem abc_nan_excluded (rows : List (Option String × Option ℚ)) (g : Option String)
    (hg : g ∈ rows.map Prod.fst) (hnull : ∀ r ∈ rows, r.1 = g → r.2 = none) :
    totalOf rows = (rows.filterMap Prod.snd).sum ∧
    groupTotal rows g = 0 ∧
    (g, 0) ∈ aggOf rows ∧
    (aggOf rows).Pairwise (fun p q => q.2 ≤ p.2) := by
  have hgt : groupTotal rows g = 0 := by
    unfold groupTotal
    have hnil : rows.filterMap (fun r => if r.1 == g then r.2 else none) = [] := by
      rw [List.filterMap_eq_nil_iff]
      intro r hr
      by_cases h : (r.1 == g) = true
      · rw [if_pos h]
        exact hnull r hr (by simpa using h)
      · rw [if_neg h]
    rw [hnil, List.sum_nil]
  refine ⟨?_, hgt, ?_, ?_⟩
  · unfold totalOf
    have hperm := (aggOf_perm rows).map Prod.snd
    rw [hperm.sum_eq, List.map_map]
    have hcomp : (Prod.snd ∘ fun k => (k, groupTotal rows k)) = groupTotal rows := rfl
    rw [hcomp]
    exact sum_groupTotal_eq rows (groupKeysOf rows) (nodup_groupKeysOf rows)
      (fun r hr => (mem_groupKeysOf rows r.1).mpr (List.mem_map_of_mem Prod.fst hr))
  · have hmem : (g, groupTotal rows g) ∈
        (groupKeysOf rows).map (fun k => (k, groupTotal rows k)) :=
      List.mem_map_of_mem _ ((mem_groupKeysOf rows g).mpr hg)
    rw [hgt] at hmem
    exact (aggOf_perm rows).mem_iff.mpr hmem
  · exact pairwise_sortStable Prod.snd _

/-- Counterexample to claim C9 as frozen: with a negative-spend group
present, the all-null group (total 0) is ranked first, not last. -/
theorem abc_allnull_not_last_cex :
    aggOf [(some "g1", some (-5)), (some "g2", none)] =
      [(some "g2", 0), (some "g1", -5)] := by
  with_unfolding_all decide

/-- Witness for the amended C9 at a concrete input with one all-null group. -/
theorem abc_nan_excluded_witness :
    totalOf [(some "g1", some 100), (some "g2", none)] =
      ([(some "g1", some 100), (some "g2", none)].filterMap Prod.snd).sum ∧
    groupTotal [(some "g1", some 100), (some "g2", none)] (some "g2") = 0 ∧
    (some "g2", (0 : ℚ)) ∈ aggOf [(some "g1", some 100), (some "g2", none)] ∧
    (aggOf [(some "g1", some 100), (some "g2", none)]).Pairwise
      (fun p q => q.2 ≤ p.2) :=
  abc_nan_excluded [(some "g1", some 100), (some "g2", none)] (some "g2")
    (by with_unfolding_all decide) (by with_unfolding_all decide)

/-! ## Parameter validation (claim C3) -/

/-- Counterexample to claim C3: no fail-fast validation exists.  With cuts
aCut = 2, bCut = 3 (violating aCut < bCut ≤ 1) the classifier still computes
a result, and with threshold 3/2 ∉ [0,1] and minLength 0 < 1 the harmonizer
still computes a result — so "no result is computed" is false. -/
theorem no_validation_cex :
    abc_classification [(some "g", some 10)] 2 3 = ["A"] ∧
    (harmonize_names (3/2) 0 3000 [some "ab", some "ab"]).2.2 = [false, false] := by
  constructor <;> with_unfolding_all decide

/-- Claim C3 (amended): the code performs no parameter validation at all —
for every parameter values, valid or not, both functions run to completion
and return one output per input row, with the parameters used as they are
(neither rejected nor clamped). -/
theorem no_validation_total (rows : List (Option String × Option ℚ)) (aCut bCut : ℚ)
    (series : List (Option String)) (t : ℚ) (m : ℤ) (mu : Nat) :
    (abc_classification rows aCut bCut).length = rows.length ∧
    (harmonize_names t m mu series).1.length = series.length ∧
    (harmonize_names t m mu series).2.2.length = series.length := by
  refine ⟨?_, ?_, ?_⟩
  · unfold abc_classification
    split <;> simp
  · simp [harmonize_names, canonFinalOf, canonNormOf, sNormOf, sRawOf]
  · have h1 : (canonFinalOf t m mu series).length = series.length := by
      simp [canonFinalOf, canonNormOf, sNormOf, sRawOf]
    have h2 : (sRawOf series).length = series.length := by simp [sRawOf]
    simp [harmonize_names, changedOf, h1, h2]

/-! ## Lemmas about the greedy clustering loop -/

theorem lookup_eq_none_of_not_mem_keys [BEq α] [LawfulBEq α] (l : List (α × β)) (k : α)
    (h : k ∉ l.map Prod.fst) : l.lookup k = none := by
  cases hl : l.lookup k with
  | none => rfl
  | some v =>
    exact absurd (List.mem_map_of_mem Prod.fst (mem_of_lookup_eq_some l k v hl)) h

theorem lookup_cons_ne [BEq α] [LawfulBEq α] (l : List (α × β)) (k k2 : α) (v : β)
    (h : k ≠ k2) : ((k2, v) :: l).lookup k = l.lookup k := by
  have : (k == k2) = false := by
    rw [Bool.eq_false_iff]
    intro hb
    exact h (eq_of_beq hb)
  rw [List.lookup, this]

/-- The assignment dict the inner scan produces is the newly collected
members (mapped to the seed) stacked on the incoming dict. -/
theorem innerAssign_fst_eq (sOK : String → String → Bool) (u : String)
    (vs : List String) (a : List (String × String)) :
    (innerAssign sOK u vs a).1 =
      ((innerAssign sOK u vs a).2.reverse.map (fun v => (v, u))) ++ a := by
  induction vs generalizing a with
  | nil => simp [innerAssign]
  | cons v rest ih =>
    rw [innerAssign]
    by_cases h1 : ((a.lookup v).isSome : Prop)
    · rw [if_pos h1]
      exact ih a
    · rw [if_neg h1]
      by_cases h2 : sOK u v = true
      · rw [if_pos h2]
        have := ih ((v, u) :: a)
        simp only [this, List.reverse_cons, List.map_append]
        simp
      · rw [if_neg h2]
        exact ih a

/-- Inner scan: an existing assignment is never overwritten. -/
theorem innerAssign_preserve (sOK : String → String → Bool) (u : String)
    (vs : List String) (a : List (String × String)) (k : String) (w : String)
    (h : a.lookup k = some w) : (innerAssign sOK u vs a).1.lookup k = some w := by
  induction vs generalizing a with
  | nil => simpa [innerAssign] using h
  | cons v rest ih =>
    rw [innerAssign]
    by_cases h1 : ((a.lookup v).isSome : Prop)
    · rw [if_pos h1]
      exact ih a h
    · rw [if_neg h1]
      by_cases h2 : sOK u v = true
      · rw [if_pos h2]
        have hkv : k ≠ v := by
          intro he
          rw [← he, h] at h1
          exact h1 rfl
        exact ih ((v, u) :: a) (by rw [lookup_cons_ne _ _ _ _ hkv]; exact h)
      · rw [if_neg h2]
        exact ih a h

/-- Inner scan: any assignment present afterwards was present before or
points to the scanning seed. -/
theorem innerAssign_lookup_cases (sOK : String → String → Bool) (u : String)
    (vs : List String) (a : List (String × String)) (k : String) (w : String)
    (h : (innerAssign sOK u vs a).1.lookup k = some w) :
    a.lookup k = some w ∨ w = u := by
  induction vs generalizing a with
  | nil => exact Or.inl (by simpa [innerAssign] using h)
  | cons v rest ih =>
    rw [innerAssign] at h
    by_cases h1 : ((a.lookup v).isSome : Prop)
    · rw [if_pos h1] at h
      exact ih a h
    · rw [if_neg h1] at h
      by_cases h2 : sOK u v = true
      · rw [if_pos h2] at h
        rcases ih ((v, u) :: a) h with hc | hc
        · by_cases hkv : k = v
          · subst hkv
            rw [List.lookup] at hc
            simp at hc
            exact Or.inr hc.symm
          · rw [lookup_cons_ne _ _ _ _ hkv] at hc
            exact Or.inl hc
        · exact Or.inr hc
      · rw [if_neg h2] at h
        exact ih a h

/-- Inner scan: a still-unassigned value in the scan list that passes the
pair test is assigned to the scanning seed. -/
theorem innerAssign_hit (sOK : String → String → Bool) (u : String)
    (vs : List String) (a : List (String × String)) (b : String)
    (hb : b ∈ vs) (hnone : a.lookup b = none) (hsim : sOK u b = true) :
    (innerAssign sOK u vs a).1.lookup b = some u := by
  induction vs generalizing a with
  | nil => simp at hb
  | cons v rest ih =>
    rw [innerAssign]
    by_cases hbv : b = v
    · subst hbv
      rw [if_neg (by rw [hnone]; simp), if_pos hsim]
      exact innerAssign_preserve sOK u rest ((b, u) :: a) b u (by simp [List.lookup])
    · have hbrest : b ∈ rest := (List.mem_cons.mp hb).resolve_left hbv
      by_cases h1 : ((a.lookup v).isSome : Prop)
      · rw [if_pos h1]
        exact ih a hbrest hnone
      · rw [if_neg h1]
        by_cases h2 : sOK u v = true
        · rw [if_pos h2]
          exact ih ((v, u) :: a) hbrest
            (by rw [lookup_cons_ne _ _ _ _ (fun he => hbv he)]; exact hnone)
        · rw [if_neg h2]
          exact ih a hbrest hnone

/-- Inner scan coverage: after the scan of seed `u`, every value of the scan
list passing the pair test is assigned (to `u` or to whoever held it). -/
theorem innerAssign_cover (sOK : String → String → Bool) (u : String)
    (vs : List String) (a : List (String × String)) (b : String)
    (hb : b ∈ vs) (hsim : sOK u b = true) :
    ((innerAssign sOK u vs a).1.lookup b).isSome := by
  cases hl : a.lookup b with
  | some w =>
    rw [innerAssign_preserve sOK u vs a b w hl]
    rfl
  | none =>
    rw [innerAssign_hit sOK u vs a b hb hl hsim]
    rfl

/-- Inner scan: nothing is collected when every scan-list value is already
assigned or fails the pair test. -/
theorem innerAssign_nothing (sOK : String → String → Bool) (u : String)
    (vs : List String) (a : List (String × String))
    (h : ∀ v ∈ vs, sOK u v = false ∨ ((a.lookup v).isSome : Prop)) :
    innerAssign sOK u vs a = (a, []) := by
  induction vs with
  | nil => rfl
  | cons v rest ih =>
    rw [innerAssign]
    rcases h v (List.mem_cons_self _ _) with hf | hs
    · by_cases h1 : ((a.lookup v).isSome : Prop)
      · rw [if_pos h1]
        exact ih (fun w hw => h w (List.mem_cons_of_mem _ hw))
      · rw [if_neg h1, if_neg (by rw [hf]; simp)]
        exact ih (fun w hw => h w (List.mem_cons_of_mem _ hw))
    · rw [if_pos hs]
      exact ih (fun w hw => h w (List.mem_cons_of_mem _ hw))

theorem lookup_cons_self [BEq α] [LawfulBEq α] (l : List (α × β)) (k : α) (v : β) :
    ((k, v) :: l).lookup k = some v := by
  simp [List.lookup]

/-- Inner scan: a key assigned afterwards was assigned before or lies in the
scan list. -/
theorem innerAssign_key_cases (sOK : String → String → Bool) (u : String)
    (vs : List String) (a : List (String × String)) (k : String) (w : String)
    (h : (innerAssign sOK u vs a).1.lookup k = some w) :
    a.lookup k = some w ∨ k ∈ vs := by
  induction vs generalizing a with
  | nil => exact Or.inl (by simpa [innerAssign] using h)
  | cons v rest ih =>
    rw [innerAssign] at h
    by_cases h1 : ((a.lookup v).isSome : Prop)
    · rw [if_pos h1] at h
      rcases ih a h with hc | hc
      · exact Or.inl hc
      · exact Or.inr (List.mem_cons_of_mem _ hc)
    · rw [if_neg h1] at h
      by_cases h2 : sOK u v = true
      · rw [if_pos h2] at h
        rcases ih ((v, u) :: a) h with hc | hc
        · by_cases hkv : k = v
          · exact Or.inr (by rw [hkv]; exact List.mem_cons_self _ _)
          · rw [lookup_cons_ne _ _ _ _ hkv] at hc
            exact Or.inl hc
        · exact Or.inr (List.mem_cons_of_mem _ hc)
      · rw [if_neg h2] at h
        rcases ih a h with hc | hc
        · exact Or.inl hc
        · exact Or.inr (List.mem_cons_of_mem _ hc)

/-- Inner scan: keeping distinct keys distinct. -/
theorem innerAssign_nodup_keys (sOK : String → String → Bool) (u : String)
    (vs : List String) (a : List (String × String))
    (h : (a.map Prod.fst).Nodup) : ((innerAssign sOK u vs a).1.map Prod.fst).Nodup := by
  induction vs generalizing a with
  | nil => simpa [innerAssign] using h
  | cons v rest ih =>
    rw [innerAssign]
    by_cases h1 : ((a.lookup v).isSome : Prop)
    · rw [if_pos h1]
      exact ih a h
    · rw [if_neg h1]
      by_cases h2 : sOK u v = true
      · rw [if_pos h2]
        refine ih ((v, u) :: a) ?_
        rw [List.map_cons]
        refine List.nodup_cons.mpr ⟨?_, h⟩
        intro hmem
        rw [Option.isSome_iff_exists] at h1
        push_neg at h1
        rcases Option.isSome_iff_exists.mp (lookup_isSome_of_mem_keys a v hmem)
          with ⟨w, hw⟩
        exact h1 w hw
      · rw [if_neg h2]
        exact ih a h

/-- The outer loop never overwrites an assignment. -/
theorem outerLoop_preserve (sOK : String → String → Bool) (full : List String) :
    ∀ (us : List String) (a : List (String × String)) (cs : List (List String))
      (k w : String), a.lookup k = some w →
      (outerLoop sOK full us a cs).1.lookup k = some w := by
  intro us
  induction us with
  | nil => intro a cs k w h; simpa [outerLoop] using h
  | cons u rest ih =>
    intro a cs k w h
    rw [outerLoop]
    by_cases h1 : ((a.lookup u).isSome : Prop)
    · rw [if_pos h1]
      exact ih a cs k w h
    · rw [if_neg h1]
      have hku : k ≠ u := by
        intro he
        rw [← he, h] at h1
        exact h1 rfl
      have ha1 : ((u, u) :: a).lookup k = some w := by
        rw [lookup_cons_ne _ _ _ _ hku]; exact h
      exact ih _ _ k w (innerAssign_preserve sOK u full ((u, u) :: a) k w ha1)

/-- Every value the outer loop visits ends up assigned. -/
theorem outerLoop_cover (sOK : String → String → Bool) (full : List String) :
    ∀ (us : List String) (a : List (String × String)) (cs : List (List String))
      (u : String), u ∈ us →
      (((outerLoop sOK full us a cs).1.lookup u).isSome : Prop) := by
  intro us
  induction us with
  | nil => intro a cs u hu; simp at hu
  | cons v rest ih =>
    intro a cs u hu
    rw [outerLoop]
    by_cases h1 : ((a.lookup v).isSome : Prop)
    · rw [if_pos h1]
      rcases List.mem_cons.mp hu with rfl | hu2
      · rcases Option.isSome_iff_exists.mp h1 with ⟨w, hw⟩
        rw [outerLoop_preserve sOK full rest a cs u w hw]
        rfl
      · exact ih a cs u hu2
    · rw [if_neg h1]
      rcases List.mem_cons.mp hu with rfl | hu2
      · have ha2 := innerAssign_preserve sOK u full ((u, u) :: a) u u
          (lookup_cons_self a u u)
        rw [outerLoop_preserve sOK full rest _ _ u u ha2]
        rfl
      · exact ih _ _ u hu2

/-- Any assignment after the outer loop was there before, or names a seed
from the visited list with a key from the visited or the scanned list. -/
theorem outerLoop_key_cases (sOK : String → String → Bool) (full : List String) :
    ∀ (us : List String) (a : List (String × String)) (cs : List (List String))
      (k w : String), (outerLoop sOK full us a cs).1.lookup k = some w →
      a.lookup k = some w ∨ (w ∈ us ∧ (k = w ∨ k ∈ full)) := by
  intro us
  induction us with
  | nil => intro a cs k w h; exact Or.inl (by simpa [outerLoop] using h)
  | cons u rest ih =>
    intro a cs k w h
    rw [outerLoop] at h
    by_cases h1 : ((a.lookup u).isSome : Prop)
    · rw [if_pos h1] at h
      rcases ih a cs k w h with hc | hc
      · exact Or.inl hc
      · exact Or.inr ⟨List.mem_cons_of_mem _ hc.1, hc.2⟩
    · rw [if_neg h1] at h
      rcases ih _ _ k w h with hc | hc
      · rcases innerAssign_lookup_cases sOK u full ((u, u) :: a) k w hc with hd | hd
        · by_cases hku : k = u
          · rw [hku, lookup_cons_self] at hd
            have hwu : u = w := by injection hd
            refine Or.inr ⟨?_, Or.inl (hku.trans hwu)⟩
            rw [← hwu]
            exact List.mem_cons_self _ _
          · rw [lookup_cons_ne _ _ _ _ hku] at hd
            exact Or.inl hd
        · rcases innerAssign_key_cases sOK u full ((u, u) :: a) k w hc with he | he
          · by_cases hku : k = u
            · exact Or.inr ⟨by rw [hd]; exact List.mem_cons_self _ _,
                Or.inl (hku.trans hd.symm)⟩
            · rw [lookup_cons_ne _ _ _ _ hku] at he
              exact Or.inl he
          · exact Or.inr ⟨by rw [hd]; exact List.mem_cons_self _ _, Or.inr he⟩
      · exact Or.inr ⟨List.mem_cons_of_mem _ hc.1, hc.2⟩

/-- The outer loop keeps the assignment keys distinct. -/
theorem outerLoop_nodup_keys (sOK : String → String → Bool) (full : List String) :
    ∀ (us : List String) (a : List (String × String)) (cs : List (List String)),
      (a.map Prod.fst).Nodup →
      ((outerLoop sOK full us a cs).1.map Prod.fst).Nodup := by
  intro us
  induction us with
  | nil => intro a cs h; simpa [outerLoop] using h
  | cons u rest ih =>
    intro a cs h
    rw [outerLoop]
    by_cases h1 : ((a.lookup u).isSome : Prop)
    · rw [if_pos h1]
      exact ih a cs h
    · rw [if_neg h1]
      refine ih _ _ (innerAssign_nodup_keys sOK u full ((u, u) :: a) ?_)
      rw [List.map_cons]
      refine List.nodup_cons.mpr ⟨?_, h⟩
      intro hmem
      rcases Option.isSome_iff_exists.mp (lookup_isSome_of_mem_keys a u hmem)
        with ⟨w, hw⟩
      rw [hw] at h1
      exact h1 rfl

/-- The assignment keys and the flattened cluster list stay in lockstep. -/
theorem outerLoop_flatten_perm (sOK : String → String → Bool) (full : List String) :
    ∀ (us : List String) (a : List (String × String)) (cs : List (List String)),
      List.Perm (a.map Prod.fst) cs.flatten →
      List.Perm ((outerLoop sOK full us a cs).1.map Prod.fst)
        ((outerLoop sOK full us a cs).2.flatten) := by
  intro us
  induction us with
  | nil =>
    intro a cs h
    rw [outerLoop]
    exact h.trans ((List.reverse_perm cs).flatten).symm
  | cons u rest ih =>
    intro a cs h
    rw [outerLoop]
    by_cases h1 : ((a.lookup u).isSome : Prop)
    · rw [if_pos h1]
      exact ih a cs h
    · rw [if_neg h1]
      refine ih _ _ ?_
      rw [innerAssign_fst_eq, List.map_append, List.map_map]
      have hfst : (Prod.fst ∘ fun v : String => (v, u)) = @id String := rfl
      rw [hfst, List.map_id, List.flatten_cons, List.map_cons]
      have hstep : List.Perm
          ((innerAssign sOK u full ((u, u) :: a)).2.reverse ++
            (u :: a.map Prod.fst))
          ((innerAssign sOK u full ((u, u) :: a)).2 ++ (u :: cs.flatten)) :=
        List.Perm.append (List.reverse_perm _) (h.cons u)
      exact hstep.trans List.perm_middle

theorem nodup_uniquesAllOf (series : List (Option String)) :
    (uniquesAllOf series).Nodup :=
  ((sortStable_perm _ _).nodup_iff).mpr (nodup_dedupFS _)

theorem nodup_uniquesOf (mu : Nat) (series : List (Option String)) :
    (uniquesOf mu series).Nodup := by
  have h1 := nodup_uniquesAllOf series
  unfold uniquesOf
  show (if mu < (uniquesAllOf series).length then (uniquesAllOf series).take mu
    else uniquesAllOf series).Nodup
  split
  · exact (List.take_sublist _ _).nodup h1
  · exact h1

theorem mem_keys_of_lookup_isSome [BEq α] [LawfulBEq α] (l : List (α × β)) (k : α)
    (h : ((l.lookup k).isSome : Prop)) : k ∈ l.map Prod.fst := by
  rcases Option.isSome_iff_exists.mp h with ⟨w, hw⟩
  exact List.mem_map_of_mem Prod.fst (mem_of_lookup_eq_some l k w hw)

/-- On a duplicate-free unique list, the final assignment keys are exactly
the unique values. -/
theorem assigned_keys_perm_uniques (sOK : String → String → Bool)
    (uniques : List String) (hnd : uniques.Nodup) :
    List.Perm ((clusteringOf sOK uniques).1.map Prod.fst) uniques := by
  have hnd2 : ((clusteringOf sOK uniques).1.map Prod.fst).Nodup :=
    outerLoop_nodup_keys sOK uniques uniques [] [] (by simp)
  have hsub1 : (clusteringOf sOK uniques).1.map Prod.fst ⊆ uniques := by
    intro k hk
    rcases Option.isSome_iff_exists.mp (lookup_isSome_of_mem_keys _ _ hk) with ⟨w, hw⟩
    rcases outerLoop_key_cases sOK uniques uniques [] [] k w hw with hc | hc
    · simp [List.lookup] at hc
    · rcases hc.2 with rfl | hm
      · exact hc.1
      · exact hm
  have hsub2 : uniques ⊆ (clusteringOf sOK uniques).1.map Prod.fst := by
    intro u hu
    exact mem_keys_of_lookup_isSome _ _ (outerLoop_cover sOK uniques uniques [] [] u hu)
  exact (hnd2.subperm hsub1).antisymm (hnd.subperm hsub2)

/-- The clusters partition the (truncated) unique list: flattening them is a
permutation of it. -/
theorem clusters_flatten_perm_uniques (sOK : String → String → Bool)
    (uniques : List String) (hnd : uniques.Nodup) :
    List.Perm ((clusteringOf sOK uniques).2.flatten) uniques :=
  ((outerLoop_flatten_perm sOK uniques uniques [] [] (by simp)).symm).trans
    (assigned_keys_perm_uniques sOK uniques hnd)

theorem lookup_append_some [BEq α] (l₁ l₂ : List (α × β)) (k : α) (w : β)
    (h : l₁.lookup k = some w) : (l₁ ++ l₂).lookup k = some w := by
  induction l₁ with
  | nil => simp [List.lookup] at h
  | cons p ps ih =>
    rw [List.lookup] at h
    rw [List.cons_append, List.lookup]
    cases hk : k == p.1 with
    | true => rw [hk] at h; exact h
    | false => rw [hk] at h; exact ih h

theorem lookup_append_none [BEq α] (l₁ l₂ : List (α × β)) (k : α)
    (h : l₁.lookup k = none) : (l₁ ++ l₂).lookup k = l₂.lookup k := by
  induction l₁ with
  | nil => rfl
  | cons p ps ih =>
    rw [List.lookup] at h
    rw [List.cons_append, List.lookup]
    cases hk : k == p.1 with
    | true => rw [hk] at h; exact absurd h (by simp)
    | false => rw [hk] at h; exact ih h

theorem lookup_append_cases [BEq α] (l₁ l₂ : List (α × β)) (k : α) (w : β)
    (h : (l₁ ++ l₂).lookup k = some w) :
    l₁.lookup k = some w ∨ l₂.lookup k = some w := by
  cases hl : l₁.lookup k with
  | some v =>
    rw [lookup_append_some l₁ l₂ k v hl] at h
    exact Or.inl h
  | none =>
    rw [lookup_append_none l₁ l₂ k hl] at h
    exact Or.inr h

theorem lookup_map_pair_const_some (l : List String) (b k : String) (hk : k ∈ l) :
    ((l.map (fun m => (m, b))).lookup k) = some b := by
  induction l with
  | nil => simp at hk
  | cons x xs ih =>
    rw [List.map_cons, List.lookup]
    by_cases hkx : k = x
    · have : (k == x) = true := by simpa using hkx
      rw [this]
    · have : (k == x) = false := by simpa using hkx
      rw [this]
      exact ih ((List.mem_cons.mp hk).resolve_left hkx)

theorem lookup_map_pair_const_cases (l : List String) (b k : String) (w : String)
    (h : ((l.map (fun m => (m, b))).lookup k) = some w) : w = b ∧ k ∈ l := by
  induction l with
  | nil => simp [List.lookup] at h
  | cons x xs ih =>
    rw [List.map_cons, List.lookup] at h
    cases hk : k == x with
    | true =>
      rw [hk] at h
      exact ⟨by simpa using h.symm, by simp [eq_of_beq hk]⟩
    | false =>
      rw [hk] at h
      rcases ih h with ⟨hw, hm⟩
      exact ⟨hw, List.mem_cons_of_mem _ hm⟩

/-- Every assignment points into a produced cluster: the value is the
cluster seed (its head), the key one of its members. -/
theorem outerLoop_sync (sOK : String → String → Bool) (full : List String) :
    ∀ (us : List String) (a : List (String × String)) (cs : List (List String)),
      (∀ k w, a.lookup k = some w → ∃ c ∈ cs, c.head? = some w ∧ k ∈ c) →
      ∀ k w, (outerLoop sOK full us a cs).1.lookup k = some w →
        ∃ c ∈ (outerLoop sOK full us a cs).2, c.head? = some w ∧ k ∈ c := by
  intro us
  induction us with
  | nil =>
    intro a cs hs k w h
    rw [outerLoop] at h ⊢
    rcases hs k w h with ⟨c, hc, hhead, hk⟩
    exact ⟨c, by simpa using hc, hhead, hk⟩
  | cons u rest ih =>
    intro a cs hs k w h
    rw [outerLoop] at h ⊢
    by_cases h1 : ((a.lookup u).isSome : Prop)
    · rw [if_pos h1] at h ⊢
      exact ih a cs hs k w h
    · rw [if_neg h1] at h ⊢
      refine ih _ _ ?_ k w h
      intro k2 w2 h2
      rw [innerAssign_fst_eq] at h2
      rcases lookup_append_cases _ _ k2 w2 h2 with hc | hc
      · have hrev := lookup_map_pair_const_cases _ u k2 w2 hc
        refine ⟨u :: (innerAssign sOK u full ((u, u) :: a)).2,
          List.mem_cons_self _ _, by rw [hrev.1]; rfl, ?_⟩
        exact List.mem_cons_of_mem _ (List.mem_reverse.mp hrev.2)
      · by_cases hku : k2 = u
        · rw [hku, lookup_cons_self] at hc
          have hwu : u = w2 := by injection hc
          refine ⟨u :: (innerAssign sOK u full ((u, u) :: a)).2,
            List.mem_cons_self _ _, by rw [hwu]; rfl, ?_⟩
          rw [hku]
          exact List.mem_cons_self _ _
        · rw [lookup_cons_ne _ _ _ _ hku] at hc
          rcases hs k2 w2 hc with ⟨c, hcm, hhead, hk2⟩
          exact ⟨c, List.mem_cons_of_mem _ hcm, hhead, hk2⟩

/-- Python max with a key function returns an element of its input. -/
theorem maxByFreq_mem (freq : String → Nat) :
    ∀ (l : List String) (b : String), maxByFreq freq b l ∈ b :: l := by
  intro l
  induction l with
  | nil => intro b; simp [maxByFreq]
  | cons x xs ih =>
    intro b
    rw [maxByFreq]
    by_cases h : freq b < freq x
    · rw [if_pos h]
      rcases List.mem_cons.mp (ih x) with he | hm
      · rw [he]; simp
      · exact List.mem_cons_of_mem _ (List.mem_cons_of_mem _ hm)
    · rw [if_neg h]
      rcases List.mem_cons.mp (ih b) with he | hm
      · rw [he]; exact List.mem_cons_self _ _
      · exact List.mem_cons_of_mem _ (List.mem_cons_of_mem _ hm)

/-- In a duplicate-free cluster list, looking a member up in `cluster_best`
yields the most frequent member of its own cluster. -/
theorem clusterBestList_lookup (freq : String → Nat) :
    ∀ (clusters : List (List String)), clusters.flatten.Nodup →
      ∀ c ∈ clusters, ∀ (h : String) (t : List String), c = h :: t →
        ∀ k ∈ c, (clusterBestList freq clusters).lookup k =
          some (maxByFreq freq h t) := by
  intro clusters
  induction clusters with
  | nil => intro _ c hc; simp at hc
  | cons c1 rest ih =>
    intro hnd c hc h t hct k hk
    rw [List.flatten_cons, List.nodup_append] at hnd
    cases c1 with
    | nil =>
      have hsplit : clusterBestList freq ([] :: rest) = clusterBestList freq rest := by
        simp [clusterBestList]
      rw [hsplit]
      rcases List.mem_cons.mp hc with rfl | hcr
      · simp at hct
      · exact ih hnd.2.1 c hcr h t hct k hk
    | cons h1 t1 =>
      have hsplit : clusterBestList freq ((h1 :: t1) :: rest) =
          ((h1 :: t1).map (fun mem => (mem, maxByFreq freq h1 t1))) ++
            clusterBestList freq rest := by
        simp [clusterBestList]
      rw [hsplit]
      rcases List.mem_cons.mp hc with rfl | hcr
      · injection hct with hh ht
        subst hh
        subst ht
        exact lookup_append_some _ _ k _ (lookup_map_pair_const_some _ _ k hk)
      · have hk2 : k ∈ rest.flatten := List.mem_flatten.mpr ⟨c, hcr, hk⟩
        have hkc1 : k ∉ (h1 :: t1) := fun hkc => hnd.2.2 hkc hk2
        have hnone : ((h1 :: t1).map
            (fun mem => (mem, maxByFreq freq h1 t1))).lookup k = none := by
          refine lookup_eq_none_of_not_mem_keys _ k ?_
          rw [List.map_map]
          have hfst : (Prod.fst ∘ fun mem : String =>
              (mem, maxByFreq freq h1 t1)) = @id String := rfl
          rw [hfst, List.map_id]
          exact hkc1
        rw [lookup_append_none _ _ k hnone]
        exact ih hnd.2.1 c hcr h t hct k hk

/-! ## Claims about the harmonizer output -/

theorem zip_zip_map_snd (f : β → γ) :
    ∀ (l1 : List α) (l2 : List β) (p : α × β × γ),
      p ∈ l1.zip (l2.zip (l2.map f)) → p.2.2 = f p.2.1 := by
  intro l1
  induction l1 with
  | nil => intro l2 p hp; simp at hp
  | cons a as ih =>
    intro l2 p hp
    cases l2 with
    | nil => simp at hp
    | cons b bs =>
      rw [List.map_cons, List.zip_cons_cons, List.zip_cons_cons] at hp
      rcases List.mem_cons.mp hp with rfl | hp2
      · rfl
      · exact ih bs p hp2

/-- Claim C5: the clusters partition the distinct normalized values.  The
canonical output is a function of the row's normalized value alone; the
audit table never shows one canonical normalized key under two different
canonical labels; and the flattened cluster list is a permutation of the
(duplicate-free, truncated) unique list — every surviving value is in
exactly one cluster. -/
theorem harmonize_partition (series : List (Option String)) (t : ℚ) (m : ℤ)
    (mu : Nat) :
    (∀ (i j : Nat) (ni nj : String), (sNormOf series)[i]? = some ni →
      (sNormOf series)[j]? = some nj → ni = nj →
      (canonFinalOf t m mu series)[i]? = (canonFinalOf t m mu series)[j]?) ∧
    (∀ e1 ∈ mappingOf t m mu series, ∀ e2 ∈ mappingOf t m mu series,
      e1.2.1 = e2.2.1 → e1.2.2 = e2.2.2) ∧
    List.Perm ((clustersOf t m mu series).flatten) (uniquesOf mu series) := by
  refine ⟨?_, ?_, ?_⟩
  · intro i j ni nj hi hj hij
    subst hij
    simp only [canonFinalOf, canonNormOf, List.getElem?_map, hi, hj]
  · have hentry : ∀ e ∈ mappingOf t m mu series,
        e.2.2 = ((bestRawListOf t m mu series).lookup e.2.1).getD e.2.1 := by
      intro e he
      have he2 : e ∈ dedupFS (((sRawOf series).zip ((canonNormOf t m mu series).zip
          (canonFinalOf t m mu series))).map (fun p => (p.1, p.2.1, p.2.2))) :=
        (sortStable_perm _ _).mem_iff.mp he
      have he3 := (mem_dedupFS _ _).mp he2
      rcases List.mem_map.mp he3 with ⟨p, hp, rfl⟩
      have hp2 : p ∈ (sRawOf series).zip ((canonNormOf t m mu series).zip
          ((canonNormOf t m mu series).map
            (fun x => ((bestRawListOf t m mu series).lookup x).getD x))) := hp
      exact zip_zip_map_snd
        (fun x => ((bestRawListOf t m mu series).lookup x).getD x) _ _ p hp2
    intro e1 h1 e2 h2 heq
    rw [hentry e1 h1, hentry e2 h2, heq]
  · exact clusters_flatten_perm_uniques (simOK t m) (uniquesOf mu series)
      (nodup_uniquesOf mu series)

/-- Every entry of `cluster_best` has its key and its value among the
truncated unique values. -/
theorem clusterBest_mem_uniques (t : ℚ) (m : ℤ) (mu : Nat)
    (series : List (Option String)) (p : String × String)
    (hp : p ∈ clusterBestOf t m mu series) :
    p.1 ∈ uniquesOf mu series ∧ p.2 ∈ uniquesOf mu series := by
  rw [clusterBestOf, clusterBestList] at hp
  rcases List.mem_flatten.mp hp with ⟨block, hblock, hpb⟩
  rcases List.mem_map.mp hblock with ⟨c, hc, rfl⟩
  cases c with
  | nil => simp at hpb
  | cons h1 t1 =>
    rcases List.mem_map.mp hpb with ⟨mem, hmem, rfl⟩
    have hflat1 : mem ∈ (clustersOf t m mu series).flatten :=
      List.mem_flatten.mpr ⟨h1 :: t1, hc, hmem⟩
    have hflat2 : maxByFreq (freqOf series) h1 t1 ∈ (clustersOf t m mu series).flatten :=
      List.mem_flatten.mpr ⟨h1 :: t1, hc, maxByFreq_mem _ t1 h1⟩
    have hperm := clusters_flatten_perm_uniques (simOK t m) (uniquesOf mu series)
      (nodup_uniquesOf mu series)
    exact ⟨hperm.mem_iff.mp hflat1, hperm.mem_iff.mp hflat2⟩

/-- A normalized value outside the truncated unique list maps to itself at
the normalized level. -/
theorem clusterBest_lookup_outside (t : ℚ) (m : ℤ) (mu : Nat)
    (series : List (Option String)) (n : String)
    (hout : n ∉ uniquesOf mu series) :
    (clusterBestOf t m mu series).lookup n = none := by
  cases h : (clusterBestOf t m mu series).lookup n with
  | none => rfl
  | some w =>
    have hmem := mem_of_lookup_eq_some _ _ _ h
    exact absurd (clusterBest_mem_uniques t m mu series (n, w) hmem).1 hout

theorem filterMap_zip_map_congr (f : β → β) (P Q : β → Bool)
    (h : ∀ b, P (f b) = Q b) :
    ∀ (l1 : List α) (l2 : List β),
      (l1.zip (l2.map f)).filterMap (fun p => if P p.2 then some p.1 else none) =
      (l1.zip l2).filterMap (fun p => if Q p.2 then some p.1 else none) := by
  intro l1
  induction l1 with
  | nil => intro l2; simp
  | cons a as ih =>
    intro l2
    cases l2 with
    | nil => simp
    | cons b bs =>
      rw [List.map_cons, List.zip_cons_cons, List.zip_cons_cons,
        List.filterMap_cons, List.filterMap_cons]
      have hPQ : P (f b) = Q b := h b
      by_cases hq : Q b = true
      · rw [hq] at hPQ
        simp only [hPQ, hq, if_pos]
        rw [ih bs]
      · rw [Bool.not_eq_true] at hq
        rw [hq] at hPQ
        simp only [hPQ, hq, Bool.false_eq_true, if_neg, not_false_iff]
        exact ih bs

theorem mostFreqFS_all_eq (l : List String) (c : String) (hne : l ≠ [])
    (hall : ∀ x ∈ l, x = c) : mostFreqFS l = c := by
  have hc : c ∈ l := by
    cases l with
    | nil => exact absurd rfl hne
    | cons x xs => rw [← hall x (List.mem_cons_self _ _)]; exact List.mem_cons_self _ _
  have hdc : c ∈ dedupFS l := (mem_dedupFS l c).mpr hc
  have hdall : ∀ x ∈ dedupFS l, x = c := fun x hx => hall x ((mem_dedupFS l x).mp hx)
  have hnd := nodup_dedupFS l
  rw [mostFreqFS]
  cases hd : dedupFS l with
  | nil => rw [hd] at hdc; simp at hdc
  | cons h tl =>
    rw [hd] at hdall hnd
    have hh : h = c := hdall h (List.mem_cons_self _ _)
    cases tl with
    | nil => simpa [maxByFreq] using hh
    | cons y ys =>
      have hy : y = c := hdall y (List.mem_cons_of_mem _ (List.mem_cons_self _ _))
      rw [List.nodup_cons] at hnd
      exact absurd (by rw [hh, hy]; exact List.mem_cons_self _ _ : h ∈ y :: ys) hnd.1

/-- Claim C2 (amended): a row whose normalized value falls beyond the
`maxUniques` truncation stays unclustered at the normalized level
(canon_norm is its own normalized value), but its final canonical string is
the most frequent raw form among the rows sharing that normalized value —
not the normalized string itself — and its changed flag is false exactly in
the single-raw-form case. -/
theorem harmonize_truncated_rows (series : List (Option String)) (t : ℚ) (m : ℤ)
    (mu : Nat) (i : Nat) (n rw0 : String)
    (hn : (sNormOf series)[i]? = some n) (hraw : (sRawOf series)[i]? = some rw0)
    (hout : n ∉ uniquesOf mu series) :
    (canonNormOf t m mu series)[i]? = some n ∧
    rawsWithCanon t m mu series n =
      ((sRawOf series).zip (sNormOf series)).filterMap
        (fun p => if p.2 == n then some p.1 else none) ∧
    (canonFinalOf t m mu series)[i]? =
      some (mostFreqFS (rawsWithCanon t m mu series n)) ∧
    ((∀ p ∈ (sRawOf series).zip (sNormOf series), p.2 = n → p.1 = rw0) →
      (changedOf t m mu series)[i]? = some false) := by
  have hf1n : ((clusterBestOf t m mu series).lookup n).getD n = n := by
    rw [clusterBest_lookup_outside t m mu series n hout]
    rfl
  have h1 : (canonNormOf t m mu series)[i]? = some n := by
    rw [canonNormOf, List.getElem?_map, hn, Option.map_some']
    rw [hf1n]
  have h2 : rawsWithCanon t m mu series n =
      ((sRawOf series).zip (sNormOf series)).filterMap
        (fun p => if p.2 == n then some p.1 else none) := by
    rw [rawsWithCanon, canonNormOf]
    refine filterMap_zip_map_congr
      (fun x => ((clusterBestOf t m mu series).lookup x).getD x)
      (fun b => b == n) (fun b => b == n) ?_ (sRawOf series) (sNormOf series)
    intro b
    show ((((clusterBestOf t m mu series).lookup b).getD b) == n) = (b == n)
    by_cases hb : b = n
    · rw [hb]
      rw [hf1n]
    · have hfb : ((clusterBestOf t m mu series).lookup b).getD b ≠ n := by
        cases hlb : (clusterBestOf t m mu series).lookup b with
        | none => simpa using hb
        | some w =>
          have hmem := mem_of_lookup_eq_some _ _ _ hlb
          intro hwn
          have hw := (clusterBest_mem_uniques t m mu series (b, w) hmem).2
          simp only [Option.getD_some] at hwn
          rw [hwn] at hw
          exact hout hw
      have hb1 : (((clusterBestOf t m mu series).lookup b).getD b == n) = false := by
        rw [Bool.eq_false_iff]
        intro hbe
        exact hfb (eq_of_beq hbe)
      have hb2 : (b == n) = false := by
        rw [Bool.eq_false_iff]
        intro hbe
        exact hb (eq_of_beq hbe)
      rw [hb1, hb2]
  have hmemdedup : n ∈ dedupFS (canonNormOf t m mu series) :=
    (mem_dedupFS _ _).mpr (List.getElem?_mem h1)
  have h3v : (bestRawListOf t m mu series).lookup n =
      some (mostFreqFS (rawsWithCanon t m mu series n)) := by
    rw [bestRawListOf]
    refine lookup_eq_some_of_mem_nodup _ _ _ ?_ ?_
    · rw [List.map_map]
      have hfst : (Prod.fst ∘ fun g : String =>
          (g, mostFreqFS (rawsWithCanon t m mu series g))) = @id String := rfl
      rw [hfst, List.map_id]
      exact nodup_dedupFS _
    · exact List.mem_map_of_mem _ hmemdedup
  have h3 : (canonFinalOf t m mu series)[i]? =
      some (mostFreqFS (rawsWithCanon t m mu series n)) := by
    rw [canonFinalOf, List.getElem?_map, h1, Option.map_some', h3v]
    rfl
  refine ⟨h1, h2, h3, ?_⟩
  intro hconst
  have hzipi : ((sRawOf series).zip (sNormOf series))[i]? = some (rw0, n) :=
    List.getElem?_zip_eq_some.mpr ⟨hraw, hn⟩
  have hnonempty : rw0 ∈ rawsWithCanon t m mu series n := by
    rw [h2]
    refine List.mem_filterMap.mpr ⟨(rw0, n), List.getElem?_mem hzipi, ?_⟩
    simp
  have hallrw : ∀ x ∈ rawsWithCanon t m mu series n, x = rw0 := by
    intro x hx
    rw [h2] at hx
    rcases List.mem_filterMap.mp hx with ⟨p, hp, hpx⟩
    by_cases hpn : (p.2 == n) = true
    · rw [if_pos hpn] at hpx
      have hx2 : x = p.1 := by simpa using hpx.symm
      rw [hx2]
      exact hconst p hp (eq_of_beq hpn)
    · rw [Bool.not_eq_true] at hpn
      rw [hpn] at hpx
      simp at hpx
  have hmf : mostFreqFS (rawsWithCanon t m mu series n) = rw0 :=
    mostFreqFS_all_eq _ _ (fun hnil => by rw [hnil] at hnonempty; simp at hnonempty)
      hallrw
  rw [changedOf, List.getElem?_map]
  have hzipc : ((canonFinalOf t m mu series).zip (sRawOf series))[i]? =
      some (mostFreqFS (rawsWithCanon t m mu series n), rw0) :=
    List.getElem?_zip_eq_some.mpr ⟨h3, hraw⟩
  rw [hzipc, Option.map_some']
  rw [hmf]
  simp

/-- Counterexample to claim C2 as frozen: with maxUniques = 1 the normalized
value "x y" falls beyond the truncation, yet the row with raw "X-Y" outputs
the canonical "X Y" (a raw form, not the normalized form "x y"), and its
changed flag is true, not false. -/
theorem harmonize_truncated_cex :
    uniquesOf 1 [some "aa", some "aa", some "X Y", some "X-Y"] = ["aa"] ∧
    normalize_text "X-Y" = "x y" ∧
    (harmonize_names (92/100) 3 1 [some "aa", some "aa", some "X Y", some "X-Y"]).1
      = ["aa", "aa", "X Y", "X Y"] ∧
    (harmonize_names (92/100) 3 1 [some "aa", some "aa", some "X Y", some "X-Y"]).2.2
      = [false, false, false, true] := by
  refine ⟨?_, ?_, ?_, ?_⟩ <;> with_unfolding_all decide

/-- Witness for the amended C2 at the concrete truncated input: row 3 (raw
"X-Y", normalized "x y", beyond the one-element truncation). -/
theorem harmonize_truncated_rows_witness :
    (canonNormOf (92/100) 3 1 [some "aa", some "aa", some "X Y", some "X-Y"])[3]? =
      some "x y" ∧
    rawsWithCanon (92/100) 3 1 [some "aa", some "aa", some "X Y", some "X-Y"] "x y" =
      (((sRawOf [some "aa", some "aa", some "X Y", some "X-Y"]).zip
        (sNormOf [some "aa", some "aa", some "X Y", some "X-Y"])).filterMap
        (fun p => if p.2 == "x y" then some p.1 else none)) ∧
    (canonFinalOf (92/100) 3 1 [some "aa", some "aa", some "X Y", some "X-Y"])[3]? =
      some (mostFreqFS (rawsWithCanon (92/100) 3 1
        [some "aa", some "aa", some "X Y", some "X-Y"] "x y")) ∧
    ((∀ p ∈ (sRawOf [some "aa", some "aa", some "X Y", some "X-Y"]).zip
        (sNormOf [some "aa", some "aa", some "X Y", some "X-Y"]),
        p.2 = "x y" → p.1 = "X-Y") →
      (changedOf (92/100) 3 1 [some "aa", some "aa", some "X Y", some "X-Y"])[3]? =
        some false) :=
  harmonize_truncated_rows [some "aa", some "aa", some "X Y", some "X-Y"]
    (92/100) 3 1 3 "x y" "X-Y"
    (by with_unfolding_all decide) (by with_unfolding_all decide)
    (by with_unfolding_all decide)

/-! ## Seed-order dependence of the clustering (claim C8) -/

theorem outerLoop_cons_skip (sOK : String → String → Bool) (full : List String)
    (u : String) (rest : List String) (a : List (String × String))
    (cs : List (List String)) (h : ((a.lookup u).isSome : Prop)) :
    outerLoop sOK full (u :: rest) a cs = outerLoop sOK full rest a cs := by
  rw [outerLoop, if_pos h]

theorem outerLoop_cons_new (sOK : String → String → Bool) (full : List String)
    (u : String) (rest : List String) (a : List (String × String))
    (cs : List (List String)) (h : a.lookup u = none) :
    outerLoop sOK full (u :: rest) a cs =
      outerLoop sOK full rest (innerAssign sOK u full ((u, u) :: a)).1
        ((u :: (innerAssign sOK u full ((u, u) :: a)).2) :: cs) := by
  rw [outerLoop, if_neg (by rw [h]; simp)]

theorem indexOf_decomp_lt (a b : String) :
    ∀ (p s : List String), (p ++ a :: s).Nodup → b ∈ s →
      (p ++ a :: s).indexOf a < (p ++ a :: s).indexOf b := by
  intro p
  induction p with
  | nil =>
    intro s hnd hb
    rw [List.nil_append, List.nodup_cons] at hnd
    rw [List.nil_append, List.indexOf_cons_self]
    have hba : b ≠ a := fun he => hnd.1 (he ▸ hb)
    rw [List.indexOf_cons_ne _ (fun he => hba he.symm)]
    exact Nat.succ_pos _
  | cons c p' ih =>
    intro s hnd hb
    rw [List.cons_append, List.nodup_cons] at hnd
    rw [List.cons_append]
    have hca : c ≠ a := fun he => hnd.1
      (he ▸ List.mem_append_right _ (List.mem_cons_self _ _))
    have hcb : c ≠ b := fun he => hnd.1
      (he ▸ List.mem_append_right _ (List.mem_cons_of_mem _ hb))
    rw [List.indexOf_cons_ne _ hca, List.indexOf_cons_ne _ hcb]
    exact Nat.succ_lt_succ (ih s hnd.2 hb)

/-- Invariant of the outer loop: every seed already present has completed
its scan, so everything it matches is assigned to someone. -/
def SeedClosed (sOK : String → String → Bool) (full : List String)
    (a : List (String × String)) : Prop :=
  ∀ s, a.lookup s = some s → ∀ v ∈ full, sOK s v = true →
    ((a.lookup v).isSome : Prop)

theorem seedClosed_step (sOK : String → String → Bool) (full : List String)
    (u : String) (a : List (String × String))
    (hc : SeedClosed sOK full a) :
    SeedClosed sOK full (innerAssign sOK u full ((u, u) :: a)).1 := by
  intro s hs v hv hsim
  have hlift : ∀ z w, a.lookup z = some w →
      (((innerAssign sOK u full ((u, u) :: a)).1.lookup z).isSome : Prop) := by
    intro z w hz
    by_cases hzu : z = u
    · rw [innerAssign_preserve sOK u full ((u, u) :: a) z u
        (by rw [hzu]; exact lookup_cons_self a u u)]
      rfl
    · rw [innerAssign_preserve sOK u full ((u, u) :: a) z w
        (by rw [lookup_cons_ne _ _ _ _ hzu]; exact hz)]
      rfl
  rcases innerAssign_lookup_cases sOK u full ((u, u) :: a) s s hs with hd | hd
  · by_cases hsu : s = u
    · rw [hsu] at hsim
      exact innerAssign_cover sOK u full ((u, u) :: a) v hv hsim
    · rw [lookup_cons_ne _ _ _ _ hsu] at hd
      rcases Option.isSome_iff_exists.mp (hc s hd v hv hsim) with ⟨w, hw⟩
      exact hlift v w hw
  · rw [hd] at hsim
    exact innerAssign_cover sOK u full ((u, u) :: a) v hv hsim

/-- The central order lemma: if x is a seed, x comes before y in the scan
order, and the pair (x, y) passes the similarity test, then y ends up
assigned — to x, or to a seed processed even earlier than x. -/
theorem outerLoop_seed_order (sOK : String → String → Bool) (full : List String)
    (hndfull : full.Nodup) (x y : String)
    (horder : full.indexOf x < full.indexOf y) (hsim : sOK x y = true) :
    ∀ (us pre : List String), full = pre ++ us →
    ∀ (a : List (String × String)) (cs : List (List String)),
      SeedClosed sOK full a →
      y ∈ us → a.lookup y = none →
      (x ∈ us ∨ a.lookup x = some x) →
      (outerLoop sOK full us a cs).1.lookup x = some x →
      ∃ s, (outerLoop sOK full us a cs).1.lookup y = some s ∧
        (s = x ∨ full.indexOf s < full.indexOf x) := by
  intro us
  induction us with
  | nil =>
    intro pre hdec a cs hclosed hy
    simp at hy
  | cons u rest ih =>
    intro pre hdec a cs hclosed hy hynone hx hseed
    have husub : ∀ z, z ∈ u :: rest → z ∈ full := by
      rw [hdec]
      intro z hz
      exact List.mem_append_right _ hz
    have hdec' : full = (pre ++ [u]) ++ rest := by
      rw [hdec, List.append_assoc]
      rfl
    by_cases h1 : ((a.lookup u).isSome : Prop)
    · rw [outerLoop_cons_skip sOK full u rest a cs h1] at hseed ⊢
      have hyu : y ≠ u := by
        intro he
        rw [← he, hynone] at h1
        simp at h1
      have hy' : y ∈ rest := (List.mem_cons.mp hy).resolve_left hyu
      have hx' : x ∈ rest ∨ a.lookup x = some x := by
        rcases hx with hxu | hxl
        · rcases List.mem_cons.mp hxu with rfl | hxr
          · rcases Option.isSome_iff_exists.mp h1 with ⟨w, hw⟩
            have hpres := outerLoop_preserve sOK full rest a cs x w hw
            rw [hpres] at hseed
            have hwx : w = x := by injection hseed
            exact Or.inr (hwx ▸ hw)
          · exact Or.inl hxr
        · exact Or.inr hxl
      exact ih (pre ++ [u]) hdec' a cs hclosed hy' hynone hx' hseed
    · have hu : a.lookup u = none := by
        cases hl : a.lookup u with
        | none => rfl
        | some w => rw [hl] at h1; exact absurd rfl h1
      rw [outerLoop_cons_new sOK full u rest a cs hu] at hseed ⊢
      by_cases hyu : u = y
      · exfalso
        rcases hx with hxu | hxl
        · rcases List.mem_cons.mp hxu with heq | hxr
          · rw [heq, hyu] at horder
            exact lt_irrefl _ horder
          · have hlt := indexOf_decomp_lt u x pre rest (hdec ▸ hndfull) hxr
            rw [← hdec, hyu] at hlt
            exact lt_irrefl _ (lt_trans horder hlt)
        · have hcontra := hclosed x hxl y (husub y hy) hsim
          rw [hynone] at hcontra
          simp at hcontra
      · by_cases hxu : u = x
        · subst hxu
          have hyx : y ≠ u := fun he => hyu he.symm
          have ha1y : ((u, u) :: a).lookup y = none := by
            rw [lookup_cons_ne _ _ _ _ hyx]
            exact hynone
          have ha2y : (innerAssign sOK u full ((u, u) :: a)).1.lookup y = some u :=
            innerAssign_hit sOK u full ((u, u) :: a) y (husub y hy) ha1y hsim
          exact ⟨u, outerLoop_preserve sOK full rest _ _ y u ha2y, Or.inl rfl⟩
        · rcases hx with hxu2 | hxl
          · have hxr : x ∈ rest :=
              (List.mem_cons.mp hxu2).resolve_left (fun he => hxu he.symm)
            have hyrest : y ∈ rest :=
              (List.mem_cons.mp hy).resolve_left (fun he => hyu he.symm)
            have ha1y : ((u, u) :: a).lookup y = none := by
              rw [lookup_cons_ne _ _ _ _ (fun he => hyu he.symm)]
              exact hynone
            cases hy2 : (innerAssign sOK u full ((u, u) :: a)).1.lookup y with
            | some w =>
              have hwu : w = u := by
                rcases innerAssign_lookup_cases sOK u full ((u, u) :: a) y w hy2
                  with hc | hc
                · rw [ha1y] at hc
                  exact absurd hc (by simp)
                · exact hc
              refine ⟨w, outerLoop_preserve sOK full rest _ _ y w hy2, Or.inr ?_⟩
              have hlt := indexOf_decomp_lt u x pre rest (hdec ▸ hndfull) hxr
              rw [← hdec] at hlt
              rw [hwu]
              exact hlt
            | none =>
              exact ih (pre ++ [u]) hdec' _ _ (seedClosed_step sOK full u a hclosed)
                hyrest hy2 (Or.inl hxr) hseed
          · have hcontra := hclosed x hxl y (husub y hy) hsim
            rw [hynone] at hcontra
            simp at hcontra

/-- Claim C8 (amended): if x and y both survive truncation, x comes first in
the descending-frequency order, the pair passes the full guard of line 91
(both lengths ≥ minLength and similarity ≥ threshold), and x is a cluster
seed, then y is assigned to x, or to a seed processed even earlier than x;
whenever y is assigned to x, the two values share one cluster and map to the
same canonical normalized value. -/
theorem harmonize_seed_order (series : List (Option String)) (t : ℚ) (m : ℤ)
    (mu : Nat) (x y : String)
    (horder : (uniquesOf mu series).indexOf x < (uniquesOf mu series).indexOf y)
    (hy : y ∈ uniquesOf mu series)
    (hsim : simOK t m x y = true)
    (hseed : (assignedOf t m mu series).lookup x = some x) :
    ∃ s, (assignedOf t m mu series).lookup y = some s ∧
      (s = x ∨ (uniquesOf mu series).indexOf s < (uniquesOf mu series).indexOf x) ∧
      (s = x → (clusterBestOf t m mu series).lookup y =
        (clusterBestOf t m mu series).lookup x) := by
  have hndu := nodup_uniquesOf mu series
  have hclosed0 : SeedClosed (simOK t m) (uniquesOf mu series) [] := by
    intro s hs
    simp [List.lookup] at hs
  have hx : x ∈ uniquesOf mu series := by
    rcases Option.isSome_iff_exists.mp
      (lookup_isSome_of_mem_keys _ x (by
        exact List.mem_map_of_mem Prod.fst (mem_of_lookup_eq_some _ _ _ hseed)))
      with ⟨w, hw⟩
    have hmemk : x ∈ (assignedOf t m mu series).map Prod.fst :=
      List.mem_map_of_mem Prod.fst (mem_of_lookup_eq_some _ _ _ hseed)
    exact (assigned_keys_perm_uniques (simOK t m) (uniquesOf mu series)
      hndu).mem_iff.mp hmemk
  rcases outerLoop_seed_order (simOK t m) (uniquesOf mu series) hndu x y horder hsim
    (uniquesOf mu series) [] rfl [] [] hclosed0 hy rfl (Or.inl hx) hseed
    with ⟨s, hlook, hor⟩
  refine ⟨s, hlook, hor, ?_⟩
  intro hsx
  rw [hsx] at hlook
  have hsync0 : ∀ (k w : String), ([] : List (String × String)).lookup k = some w →
      ∃ c ∈ ([] : List (List String)), c.head? = some w ∧ k ∈ c := by
    intro k w hk
    simp [List.lookup] at hk
  rcases outerLoop_sync (simOK t m) (uniquesOf mu series) (uniquesOf mu series)
    [] [] hsync0 y x hlook with ⟨c, hc, hhead, hyc⟩
  have hflatnd : (clustersOf t m mu series).flatten.Nodup :=
    ((clusters_flatten_perm_uniques (simOK t m) (uniquesOf mu series)
      hndu).nodup_iff).mpr hndu
  cases c with
  | nil => simp at hhead
  | cons h0 t0 =>
    have hh0 : h0 = x := by injection hhead
    have hxc : x ∈ h0 :: t0 := by rw [hh0]; exact List.mem_cons_self _ _
    rw [clusterBestOf]
    rw [clusterBestList_lookup (freqOf series) (clustersOf t m mu series) hflatnd
      (h0 :: t0) hc h0 t0 rfl y hyc]
    rw [clusterBestList_lookup (freqOf series) (clustersOf t m mu series) hflatnd
      (h0 :: t0) hc h0 t0 rfl x hxc]

/-- Counterexample to claim C8 as frozen: with min_len = 4 the pair
("aaa", "aab") has similarity 2/3 ≥ 1/2 and "aaa" is processed first, yet
"aab" does not canonicalize to "aaa": the length guard of line 91 (absent
from the claim) blocks the merge. -/
theorem harmonize_seed_order_cex :
    uniquesOf 3000 [some "aaa", some "aaa", some "aab"] = ["aaa", "aab"] ∧
    ((1 : ℚ)/2 ≤ similarity "aaa" "aab") ∧
    (harmonize_names (1/2) 4 3000 [some "aaa", some "aaa", some "aab"]).1 =
      ["aaa", "aaa", "aab"] := by
  refine ⟨?_, ?_, ?_⟩ <;> with_unfolding_all decide

/-- Witness for the amended C8: with min_len = 3 the same pair does merge —
"aaab" is assigned to the seed "aaaa" and shares its canonical. -/
theorem harmonize_seed_order_witness :
    ∃ s, (assignedOf (7/10) 3 3000
        [some "aaaa", some "aaaa", some "aaab"]).lookup "aaab" = some s ∧
      (s = "aaaa" ∨
        (uniquesOf 3000 [some "aaaa", some "aaaa", some "aaab"]).indexOf s <
        (uniquesOf 3000 [some "aaaa", some "aaaa", some "aaab"]).indexOf "aaaa") ∧
      (s = "aaaa" →
        (clusterBestOf (7/10) 3 3000
          [some "aaaa", some "aaaa", some "aaab"]).lookup "aaab" =
        (clusterBestOf (7/10) 3 3000
          [some "aaaa", some "aaaa", some "aaab"]).lookup "aaaa") :=
  harmonize_seed_order [some "aaaa", some "aaaa", some "aaab"] (7/10) 3 3000
    "aaaa" "aaab"
    (by with_unfolding_all decide) (by with_unfolding_all decide)
    (by with_unfolding_all decide) (by with_unfolding_all decide)

/-! ## Conditional idempotence (claim C4) -/

/-- When no two distinct visited values pass the pair test, the greedy loop
degenerates: everything seeds its own singleton cluster. -/
theorem outerLoop_nomatch (sOK : String → String → Bool) (full : List String) :
    ∀ (us : List String) (a : List (String × String)) (cs : List (List String)),
      us.Nodup → (∀ u ∈ us, a.lookup u = none) →
      (∀ u ∈ us, ∀ v ∈ full, v ≠ u → sOK u v = false) →
      outerLoop sOK full us a cs =
        ((us.reverse.map (fun u => (u, u))) ++ a,
          cs.reverse ++ us.map (fun u => [u])) := by
  intro us
  induction us with
  | nil =>
    intro a cs _ _ _
    rw [outerLoop]
    simp
  | cons u rest ih =>
    intro a cs hnd h1 h2
    rw [List.nodup_cons] at hnd
    have hu : a.lookup u = none := h1 u (List.mem_cons_self _ _)
    rw [outerLoop_cons_new sOK full u rest a cs hu]
    have hinner : innerAssign sOK u full ((u, u) :: a) = ((u, u) :: a, []) := by
      refine innerAssign_nothing sOK u full ((u, u) :: a) ?_
      intro v hv
      by_cases hvu : v = u
      · refine Or.inr ?_
        rw [hvu, lookup_cons_self]
        rfl
      · exact Or.inl (h2 u (List.mem_cons_self _ _) v hv hvu)
    rw [hinner]
    have h1' : ∀ w ∈ rest, ((u, u) :: a).lookup w = none := by
      intro w hw
      have hwu : w ≠ u := fun he => hnd.1 (he ▸ hw)
      rw [lookup_cons_ne _ _ _ _ hwu]
      exact h1 w (List.mem_cons_of_mem _ hw)
    have h2' : ∀ w ∈ rest, ∀ v ∈ full, v ≠ w → sOK w v = false :=
      fun w hw => h2 w (List.mem_cons_of_mem _ hw)
    rw [ih ((u, u) :: a) ([u] :: cs) hnd.2 h1' h2']
    simp only [List.reverse_cons, List.map_append, List.map_cons, List.map_nil,
      List.append_assoc, List.cons_append, List.nil_append, List.singleton_append]

/-- Singleton clusters give the identity `cluster_best` table. -/
theorem clusterBestList_singletons (freq : String → Nat) :
    ∀ (l : List String),
      clusterBestList freq (l.map (fun u => [u])) = l.map (fun u => (u, u)) := by
  intro l
  induction l with
  | nil => rfl
  | cons u rest ih =>
    rw [List.map_cons, List.map_cons, clusterBestList, List.map_cons,
      List.flatten_cons]
    rw [clusterBestList] at ih
    rw [ih]
    rfl

theorem lookup_diag (l : List String) (k : String) (hk : k ∈ l) :
    (l.map (fun u => (u, u))).lookup k = some k := by
  induction l with
  | nil => simp at hk
  | cons x xs ih =>
    rw [List.map_cons, List.lookup]
    by_cases hkx : k = x
    · have hb : (k == x) = true := by simpa using hkx
      rw [hb, hkx]
    · have hb : (k == x) = false := by
        rw [Bool.eq_false_iff]
        intro hbe
        exact hkx (eq_of_beq hbe)
      rw [hb]
      exact ih ((List.mem_cons.mp hk).resolve_left hkx)

/-- With no matching pair among the truncated unique values, every
normalized value is its own canonical normalized value. -/
theorem clusterBest_nomatch (t : ℚ) (m : ℤ) (mu : Nat)
    (series : List (Option String))
    (hpair : ∀ u ∈ uniquesOf mu series, ∀ v ∈ uniquesOf mu series, v ≠ u →
      simOK t m u v = false) (k : String) :
    ((clusterBestOf t m mu series).lookup k).getD k = k := by
  have houter := outerLoop_nomatch (simOK t m) (uniquesOf mu series)
    (uniquesOf mu series) [] [] (nodup_uniquesOf mu series)
    (fun _ _ => rfl) hpair
  have hclusters : clustersOf t m mu series =
      (uniquesOf mu series).map (fun u => [u]) := by
    rw [clustersOf, clusteringOf, houter]
    simp
  rw [clusterBestOf, hclusters, clusterBestList_singletons]
  by_cases hk : k ∈ uniquesOf mu series
  · rw [lookup_diag _ k hk]
    rfl
  · rw [lookup_eq_none_of_not_mem_keys]
    · rfl
    · rw [List.map_map]
      have hfst : (Prod.fst ∘ fun u : String => (u, u)) = @id String := rfl
      rw [hfst, List.map_id]
      exact hk

theorem canonNorm_nomatch (t : ℚ) (m : ℤ) (mu : Nat)
    (series : List (Option String))
    (hpair : ∀ u ∈ uniquesOf mu series, ∀ v ∈ uniquesOf mu series, v ≠ u →
      simOK t m u v = false) :
    canonNormOf t m mu series = sNormOf series := by
  rw [canonNormOf]
  have hf : (fun x => ((clusterBestOf t m mu series).lookup x).getD x) =
      @id String := funext fun k => clusterBest_nomatch t m mu series hpair k
  rw [hf, List.map_id]

theorem zip_map_self (h : α → β) :
    ∀ (l : List α) (p : α × β), p ∈ l.zip (l.map h) → p.2 = h p.1 := by
  intro l
  induction l with
  | nil => intro p hp; simp at hp
  | cons a as ih =>
    intro p hp
    rw [List.map_cons, List.zip_cons_cons] at hp
    rcases List.mem_cons.mp hp with rfl | hp2
    · rfl
    · exact ih p hp2

theorem dedupFS_ne_nil [DecidableEq α] (l : List α) (hne : l ≠ []) :
    dedupFS l ≠ [] := by
  cases l with
  | nil => exact absurd rfl hne
  | cons x xs =>
    intro hd
    have hx : x ∈ dedupFS (x :: xs) :=
      (mem_dedupFS _ _).mpr (List.mem_cons_self _ _)
    rw [hd] at hx
    simp at hx

theorem mostFreqFS_mem (l : List String) (hne : l ≠ []) : mostFreqFS l ∈ l := by
  rw [mostFreqFS]
  cases hd : dedupFS l with
  | nil => exact absurd hd (dedupFS_ne_nil l hne)
  | cons h tl =>
    have hmem := maxByFreq_mem (fun x => l.count x) tl h
    rw [← hd] at hmem
    exact (mem_dedupFS _ _).mp hmem

theorem sNormOf_getElem (series : List (Option String)) (i : Nat) :
    (sNormOf series)[i]? = ((sRawOf series)[i]?).map normalize_text := by
  rw [sNormOf, List.getElem?_map]

/-- Looking a canonical normalized value up in `best_raw` yields the most
frequent raw among the rows mapped to it. -/
theorem bestRawList_lookup_dedup (t : ℚ) (m : ℤ) (mu : Nat)
    (series : List (Option String)) (g : String)
    (hg : g ∈ dedupFS (canonNormOf t m mu series)) :
    (bestRawListOf t m mu series).lookup g =
      some (mostFreqFS (rawsWithCanon t m mu series g)) := by
  rw [bestRawListOf]
  refine lookup_eq_some_of_mem_nodup _ _ _ ?_ ?_
  · rw [List.map_map]
    have hfst : (Prod.fst ∘ fun g2 : String =>
        (g2, mostFreqFS (rawsWithCanon t m mu series g2))) = @id String := rfl
    rw [hfst, List.map_id]
    exact nodup_dedupFS _
  · exact List.mem_map_of_mem _ hg

theorem canonNormOf_as_raw_map (t : ℚ) (m : ℤ) (mu : Nat)
    (series : List (Option String)) :
    canonNormOf t m mu series = (sRawOf series).map
      (fun r => ((clusterBestOf t m mu series).lookup
        (normalize_text r)).getD (normalize_text r)) := by
  rw [canonNormOf, sNormOf, List.map_map]
  rfl

/-- A canonical normalized value with at least one row has a nonempty raw
group. -/
theorem rawsWithCanon_ne_nil (t : ℚ) (m : ℤ) (mu : Nat)
    (series : List (Option String)) (g : String)
    (hg : g ∈ canonNormOf t m mu series) :
    rawsWithCanon t m mu series g ≠ [] := by
  rcases List.mem_iff_getElem?.mp hg with ⟨j, hj⟩
  have hj2 : ((sRawOf series)[j]?).map (fun r =>
      ((clusterBestOf t m mu series).lookup
        (normalize_text r)).getD (normalize_text r)) = some g := by
    rw [← List.getElem?_map, ← canonNormOf_as_raw_map, hj]
  cases hr : (sRawOf series)[j]? with
  | none => rw [hr] at hj2; simp at hj2
  | some r =>
    rw [hr, Option.map_some'] at hj2
    have hzip : (r, g) ∈ (sRawOf series).zip (canonNormOf t m mu series) := by
      refine List.getElem?_mem (List.getElem?_zip_eq_some.mpr ⟨hr, hj⟩)
    have hrmem : r ∈ rawsWithCanon t m mu series g := by
      rw [rawsWithCanon]
      exact List.mem_filterMap.mpr ⟨(r, g), hzip, by simp⟩
    intro hnil
    rw [hnil] at hrmem
    simp at hrmem

/-- The normalized form of a canonical label recovers its canonical
normalized key. -/
theorem canonNorm_of_mostFreq (t : ℚ) (m : ℤ) (mu : Nat)
    (series : List (Option String)) (g : String)
    (hg : g ∈ canonNormOf t m mu series) :
    ((clusterBestOf t m mu series).lookup
      (normalize_text (mostFreqFS (rawsWithCanon t m mu series g)))).getD
      (normalize_text (mostFreqFS (rawsWithCanon t m mu series g))) = g := by
  have hne := rawsWithCanon_ne_nil t m mu series g hg
  have hmem := mostFreqFS_mem _ hne
  rw [rawsWithCanon] at hmem
  rcases List.mem_filterMap.mp hmem with ⟨p, hp, hpx⟩
  by_cases hpn : (p.2 == g) = true
  · rw [if_pos hpn] at hpx
    have hp1 : p.1 = mostFreqFS (rawsWithCanon t m mu series g) := by
      injection hpx
    have hp2 : p.2 = g := eq_of_beq hpn
    have hzms : p.2 = ((clusterBestOf t m mu series).lookup
        (normalize_text p.1)).getD (normalize_text p.1) := by
      refine zip_map_self (fun r => ((clusterBestOf t m mu series).lookup
        (normalize_text r)).getD (normalize_text r)) (sRawOf series) p ?_
      rw [← canonNormOf_as_raw_map]
      exact hp
    rw [hp1] at hzms
    rw [← hzms, hp2]
  · rw [Bool.not_eq_true] at hpn
    rw [hpn] at hpx
    simp at hpx

/-- Distinct canonical labels always differ after normalization: the final
output never contains two different strings with one normalized form. -/
theorem canonFinal_norm_inj (series : List (Option String)) (t : ℚ) (m : ℤ)
    (mu : Nat) (ci cj : String)
    (hi : ci ∈ canonFinalOf t m mu series) (hj : cj ∈ canonFinalOf t m mu series)
    (heq : normalize_text ci = normalize_text cj) : ci = cj := by
  rw [canonFinalOf] at hi hj
  rcases List.mem_map.mp hi with ⟨gi, hgi, hfi⟩
  rcases List.mem_map.mp hj with ⟨gj, hgj, hfj⟩
  have hvi : (bestRawListOf t m mu series).lookup gi =
      some (mostFreqFS (rawsWithCanon t m mu series gi)) :=
    bestRawList_lookup_dedup t m mu series gi ((mem_dedupFS _ _).mpr hgi)
  have hvj : (bestRawListOf t m mu series).lookup gj =
      some (mostFreqFS (rawsWithCanon t m mu series gj)) :=
    bestRawList_lookup_dedup t m mu series gj ((mem_dedupFS _ _).mpr hgj)
  have hci : ci = mostFreqFS (rawsWithCanon t m mu series gi) := by
    rw [← hfi, hvi]
    rfl
  have hcj : cj = mostFreqFS (rawsWithCanon t m mu series gj) := by
    rw [← hfj, hvj]
    rfl
  have hgi2 := canonNorm_of_mostFreq t m mu series gi hgi
  have hgj2 := canonNorm_of_mostFreq t m mu series gj hgj
  rw [← hci] at hgi2
  rw [← hcj] at hgj2
  have hgij : gi = gj := by
    rw [← hgi2, ← hgj2, heq]
  rw [hci, hcj, hgij]

/-- Under pairwise non-matching (and one raw form per normalized value) the
harmonizer is the identity on the raw series. -/
theorem harmonize_nomatch_canonFinal (series : List (Option String)) (t : ℚ)
    (m : ℤ) (mu : Nat)
    (hinj : ∀ p ∈ (sRawOf series).zip (sNormOf series),
            ∀ q ∈ (sRawOf series).zip (sNormOf series), p.2 = q.2 → p.1 = q.1)
    (hpair : ∀ u ∈ uniquesOf mu series, ∀ v ∈ uniquesOf mu series, v ≠ u →
      simOK t m u v = false) :
    canonFinalOf t m mu series = sRawOf series := by
  have hcn := canonNorm_nomatch t m mu series hpair
  refine List.ext_getElem?_iff.mpr ?_
  intro i
  rw [canonFinalOf, List.getElem?_map, hcn]
  cases hi : (sNormOf series)[i]? with
  | none =>
    have hsr : (sRawOf series)[i]? = none := by
      have h2 := sNormOf_getElem series i
      rw [hi] at h2
      cases hr : (sRawOf series)[i]? with
      | none => rfl
      | some r => rw [hr] at h2; simp at h2
    rw [hsr]
    rfl
  | some n =>
    have h2 := sNormOf_getElem series i
    rw [hi] at h2
    cases hr : (sRawOf series)[i]? with
    | none => rw [hr] at h2; simp at h2
    | some r =>
      rw [hr, Option.map_some'] at h2
      have hnr : n = normalize_text r := by injection h2
      have hmemc : n ∈ canonNormOf t m mu series := by
        rw [hcn]
        exact List.getElem?_mem hi
      have h3v := bestRawList_lookup_dedup t m mu series n
        ((mem_dedupFS _ _).mpr hmemc)
      have hrn : (r, n) ∈ (sRawOf series).zip (sNormOf series) :=
        List.getElem?_mem (List.getElem?_zip_eq_some.mpr ⟨hr, hi⟩)
      have hraws_all : ∀ x ∈ rawsWithCanon t m mu series n, x = r := by
        intro x hx
        rw [rawsWithCanon, hcn] at hx
        rcases List.mem_filterMap.mp hx with ⟨p, hp, hpx⟩
        by_cases hpn : (p.2 == n) = true
        · rw [if_pos hpn] at hpx
          have hxp : p.1 = x := by injection hpx
          rw [← hxp]
          exact hinj p hp (r, n) hrn (eq_of_beq hpn)
        · rw [Bool.not_eq_true] at hpn
          rw [hpn] at hpx
          simp at hpx
      have hrne : rawsWithCanon t m mu series n ≠ [] := by
        have hrr : r ∈ rawsWithCanon t m mu series n := by
          rw [rawsWithCanon, hcn]
          exact List.mem_filterMap.mpr ⟨(r, n), hrn, by simp⟩
        intro hnil
        rw [hnil] at hrr
        simp at hrr
      have hmf : mostFreqFS (rawsWithCanon t m mu series n) = r :=
        mostFreqFS_all_eq _ r hrne hraws_all
      rw [Option.map_some', h3v]
      rw [hmf]
      rfl

theorem zip_self_changed (l : List String) :
    ((l.zip l).map (fun p => !(pyStrip p.1 == pyStrip p.2))) =
      List.replicate l.length false := by
  induction l with
  | nil => rfl
  | cons x xs ih =>
    rw [List.zip_cons_cons, List.map_cons, ih, List.length_cons,
      List.replicate_succ]
    simp

/-- Claim C4 (amended): a second run of the harmonizer on the canonical
output of a first run changes nothing, provided the distinct normalized
forms of the first-run output that survive truncation are pairwise
non-matching under the line-91 guard.  (The one-raw-per-normalized-form
requirement is automatic: `canonFinal_norm_inj`.)  Without that proviso a
second run can merge further, see the counterexample. -/
theorem harmonize_idempotent_when_separated (series0 : List (Option String))
    (t : ℚ) (m : ℤ) (mu : Nat)
    (hpair : ∀ u ∈ uniquesOf mu ((harmonize_names t m mu series0).1.map some),
             ∀ v ∈ uniquesOf mu ((harmonize_names t m mu series0).1.map some),
             v ≠ u → simOK t m u v = false) :
    (harmonize_names t m mu ((harmonize_names t m mu series0).1.map some)).2.2 =
      List.replicate (harmonize_names t m mu series0).1.length false := by
  have hraw1 : sRawOf ((harmonize_names t m mu series0).1.map some) =
      canonFinalOf t m mu series0 := by
    rw [sRawOf, List.map_map]
    have hgd : ((fun o : Option String => o.getD "") ∘ some) = @id String := rfl
    rw [hgd, List.map_id]
    rfl
  have hinj : ∀ p ∈ (sRawOf ((harmonize_names t m mu series0).1.map some)).zip
        (sNormOf ((harmonize_names t m mu series0).1.map some)),
      ∀ q ∈ (sRawOf ((harmonize_names t m mu series0).1.map some)).zip
        (sNormOf ((harmonize_names t m mu series0).1.map some)),
      p.2 = q.2 → p.1 = q.1 := by
    intro p hp q hq hpq
    have hp2 : p.2 = normalize_text p.1 := by
      refine zip_map_self normalize_text
        (sRawOf ((harmonize_names t m mu series0).1.map some)) p ?_
      rw [← sNormOf]
      exact hp
    have hq2 : q.2 = normalize_text q.1 := by
      refine zip_map_self normalize_text
        (sRawOf ((harmonize_names t m mu series0).1.map some)) q ?_
      rw [← sNormOf]
      exact hq
    have hp1 : p.1 ∈ canonFinalOf t m mu series0 := by
      rw [← hraw1]
      exact (List.mem_zip hp).1
    have hq1 : q.1 ∈ canonFinalOf t m mu series0 := by
      rw [← hraw1]
      exact (List.mem_zip hq).1
    exact canonFinal_norm_inj series0 t m mu p.1 q.1 hp1 hq1
      (by rw [← hp2, ← hq2]; exact hpq)
  have hcf := harmonize_nomatch_canonFinal
    ((harmonize_names t m mu series0).1.map some) t m mu hinj hpair
  show changedOf t m mu ((harmonize_names t m mu series0).1.map some) = _
  rw [changedOf, hcf, hraw1, zip_self_changed]
  rfl

/-- Counterexample to claim C4 as frozen: running the harmonizer on its own
canonical output changes a row.  The first run collapses "xxxx"{!,?,.} and
"xxyy" into one cluster whose display form is "xxyy"; in the second run
"zzyy" now matches "xxyy" (similarity 1/2 ≥ threshold) and is rewritten, so
the second changed mask is not all false. -/
theorem harmonize_not_idempotent_cex :
    (harmonize_names (1/2) 3 3000 ((harmonize_names (1/2) 3 3000
      [some "xxxx!", some "xxxx?", some "xxxx.", some "xxyy", some "xxyy",
        some "zzyy"]).1.map some)).2.2 =
      [false, false, false, false, false, true] := by
  with_unfolding_all decide

/-- Witness for the amended C4 at a concrete input whose outputs are
pairwise non-matching. -/
theorem harmonize_idempotent_when_separated_witness :
    (harmonize_names (92/100) 3 3000 ((harmonize_names (92/100) 3 3000
      [some "xx", some "yy"]).1.map some)).2.2 =
      List.replicate (harmonize_names (92/100) 3 3000 [some "xx", some "yy"]).1.length
        false :=
  harmonize_idempotent_when_separated [some "xx", some "yy"] (92/100) 3 3000
    (by with_unfolding_all decide)

end PA
